import Mathlib

/- The arithmetic on ℚ from Batteries is `@[irreducible]`, which would stop
`decide`/`rfl` from evaluating the pipeline on concrete tables.  Restoring
the ordinary reducibility of these definitions only affects elaboration;
every proof still goes through the kernel. -/
set_option allowUnsafeReducibility true
attribute [local semireducible] Rat.add Rat.mul Rat.inv Rat.sub Rat.div Rat.neg

/-!
Verification of the data normalization and monthly aggregation pipeline of the
real-world-insights-dashboard repository (src/analysis/prepare.py).

The embedding models a pandas `DataFrame` at two levels of precision:

* `RTable` — a generic raw table (named columns, rows of cells), used for
  `load_raw` (the schema normalizer), whose behaviour is column-name driven.
* `CTable` — the canonical view consumed by `build_metrics` (the monthly
  aggregator): a `date` column, a numeric `value` column, and the optional
  `region` / `road_category` context columns, represented as table-level
  presence flags.

Numeric cells are modelled as exact rationals (pandas uses floats; every
statement about concrete statistics is exact arithmetic, which is the intent
the source computes up to floating-point rounding).  A cell holding a
date-like string is modelled directly as a `Date` value; `to_datetime`
accepts it and rejects non-date cells, matching the "rows that fail date
parsing are a hard error" behaviour.
-/

/-- Calendar date at day resolution (`pandas.Timestamp` truncated to what the
pipeline reads: `.dt.year`, `.dt.month`, and chronological order). -/
structure Date where
  year : Nat
  month : Nat
  day : Nat
deriving DecidableEq, Repr

/-- Chronological (lexicographic) order on dates, as a boolean. -/
def Date.leb (a b : Date) : Bool :=
  decide (a.year < b.year) ||
    (decide (a.year = b.year) &&
      (decide (a.month < b.month) ||
        (decide (a.month = b.month) && decide (a.day ≤ b.day))))

theorem Date.leb_total (a b : Date) : a.leb b = true ∨ b.leb a = true := by
  simp only [Date.leb, Bool.or_eq_true, Bool.and_eq_true, decide_eq_true_eq]
  omega

theorem Date.leb_trans {a b c : Date} (h1 : a.leb b = true) (h2 : b.leb c = true) :
    a.leb c = true := by
  simp only [Date.leb, Bool.or_eq_true, Bool.and_eq_true, decide_eq_true_eq] at *
  omega

/-- One cell of a raw table.  `str` covers arbitrary object data; a
date-formatted string is represented as `date` (see module docstring). -/
inductive Cell where
  | num (q : ℚ)
  | str (s : String)
  | date (d : Date)
deriving DecidableEq, Repr

def Cell.isNum : Cell → Bool
  | .num _ => true
  | _ => false

/-- The date carried by a cell (junk default for non-date cells; only ever
read from converted date columns). -/
def Cell.dateOf : Cell → Date
  | .date d => d
  | _ => ⟨0, 0, 0⟩

def Cell.ratOf : Cell → ℚ
  | .num q => q
  | _ => 0

def Cell.strOf : Cell → String
  | .str s => s
  | _ => ""

/-- A raw pandas DataFrame: column names plus rows of cells (row cell `i`
belongs to column `i`). -/
structure RTable where
  cols : List String
  rows : List (List Cell)
deriving DecidableEq, Repr

def RTable.hasCol (t : RTable) (n : String) : Bool :=
  t.cols.contains n

def RTable.idxOf (t : RTable) (n : String) : Nat :=
  t.cols.indexOf n

/-- The cells of column `n`, in row order. -/
def RTable.colCells (t : RTable) (n : String) : List Cell :=
  t.rows.map (fun r => r.getD (t.idxOf n) (.str ""))

/-- pandas dtype test used by `select_dtypes(include="number")`: a column read
from CSV is numeric iff it is nonempty and all its cells are numeric (an
empty column reads as object dtype). -/
def RTable.isNumericCol (t : RTable) (n : String) : Bool :=
  !t.rows.isEmpty && (t.colCells n).all Cell.isNum

/-- `df.rename(columns={old: new})`: renames every column called `old`. -/
def RTable.rename (t : RTable) (old new : String) : RTable :=
  { t with cols := t.cols.map (fun c => if c == old then new else c) }

/-- `pd.to_datetime` on one cell: date-like strings (modelled as `Cell.date`)
convert, everything else is a hard parse error. -/
def Cell.toDatetime : Cell → Option Cell
  | .date d => some (.date d)
  | _ => none

/-- Convert the cells at position `i` of a row via `Cell.toDatetime`. -/
def convertCells (i : Nat) : Nat → List Cell → Option (List Cell)
  | _, [] => some []
  | j, c :: cs =>
      match (if j = i then c.toDatetime else some c), convertCells i (j + 1) cs with
      | some c1, some cs1 => some (c1 :: cs1)
      | _, _ => none

/-- Convert the cells at position `i` of every row. -/
def convertRows (i : Nat) : List (List Cell) → Option (List (List Cell))
  | [] => some []
  | r :: rs =>
      match convertCells i 0 r, convertRows i rs with
      | some r1, some rs1 => some (r1 :: rs1)
      | _, _ => none

/-- `df[c] = pd.to_datetime(df[c])`. -/
def RTable.toDatetimeCol (t : RTable) (c : String) : Except String RTable :=
  match convertRows (t.idxOf c) t.rows with
  | some rs => .ok { t with rows := rs }
  | none => .error "date parse error"

/-- `df[keep]`: project onto the named columns, in that order. -/
def RTable.select (t : RTable) (keep : List String) : RTable :=
  { cols := keep
    rows := t.rows.map (fun r => keep.map (fun c => r.getD (t.idxOf c) (.str ""))) }

/-- Row comparison used by `sort_values(c)`: compare the dates in column
index `i`. -/
def rowDateLe (i : Nat) (r1 r2 : List Cell) : Prop :=
  Date.leb (Cell.dateOf (r1.getD i (.str ""))) (Cell.dateOf (r2.getD i (.str ""))) = true

instance (i : Nat) : DecidableRel (rowDateLe i) := fun r1 r2 =>
  instDecidableEqBool _ _

instance (i : Nat) : IsTotal (List Cell) (rowDateLe i) :=
  ⟨fun r1 r2 => Date.leb_total _ _⟩

instance (i : Nat) : IsTrans (List Cell) (rowDateLe i) :=
  ⟨fun _ _ _ h1 h2 => Date.leb_trans h1 h2⟩

/-- `df.sort_values(c)` where column `c` holds dates. -/
def RTable.sortOn (t : RTable) (c : String) : RTable :=
  { t with rows := t.rows.insertionSort (rowDateLe (t.idxOf c)) }

/-- `DATE_COL_CANDIDATES` from prepare.py line 9. -/
def DATE_COL_CANDIDATES : List String := ["date", "timestamp", "datetime"]

/-- `nvdb_cols` from prepare.py line 36. -/
def NVDB_COLS : List String :=
  ["region", "road_category", "traffic_type", "county", "road_number"]

/-- prepare.py lines 17-21: the first matching date-column candidate is
converted with `to_datetime` and renamed to `date`; if none matches the
table passes through unchanged (the caller then fails the `"date"` check). -/
def dateStage (t : RTable) : Except String RTable :=
  match DATE_COL_CANDIDATES.find? (fun c => t.hasCol c) with
  | some c => (t.toDatetimeCol c).map (fun u => u.rename c "date")
  | none => .ok t

/-- prepare.py lines 26-32: if no `value` column exists, the first numeric
column (in declaration order) is renamed to `value`; with no numeric column
at all this raises. -/
def valueStage (t1 : RTable) : Except String RTable :=
  if t1.hasCol "value" then pure t1
  else
    match t1.cols.filter (fun n => t1.isNumericCol n) with
    | [] => throw "No numeric column found. Add a 'value' column to your CSV."
    | c :: _ => pure (t1.rename c "value")

/-- prepare.py lines 35-41: keep `date`, `value` and the present NVDB
context columns, then sort by `date`. -/
def keepStage (t2 : RTable) : RTable :=
  (t2.select (["date", "value"] ++ NVDB_COLS.filter (fun c => t2.hasCol c))).sortOn "date"

/-- `load_raw` from prepare.py lines 12-41 (minus the `pd.read_csv` I/O: the
input table is the parsed CSV). -/
def load_raw (t : RTable) : Except String RTable := do
  let t1 ← dateStage t
  if !(t1.hasCol "date") then
    throw "Could not find a date column. Add 'date' to your CSV."
  else
    let t2 ← valueStage t1
    pure (keepStage t2)

deriving instance DecidableEq for Except

/-- Strict lexicographic order on codepoint sequences: the order Python (and
hence pandas `sort_values` / sorted `groupby` keys) uses on strings. -/
def natListLt : List Nat → List Nat → Bool
  | [], [] => false
  | [], _ :: _ => true
  | _ :: _, [] => false
  | a :: as, b :: bs => decide (a < b) || (decide (a = b) && natListLt as bs)

/-- Codepoints of a string. -/
def strCode (s : String) : List Nat :=
  s.data.map Char.toNat

/-- Python-style strict order on strings. -/
def strLtb (a b : String) : Bool :=
  natListLt (strCode a) (strCode b)

theorem natListLt_irrefl (l : List Nat) : natListLt l l = false := by
  induction l with
  | nil => rfl
  | cons a as ih => simp [natListLt, ih]

theorem natListLt_asymm_eq {l1 l2 : List Nat}
    (h1 : natListLt l1 l2 = false) (h2 : natListLt l2 l1 = false) : l1 = l2 := by
  induction l1 generalizing l2 with
  | nil => cases l2 with
    | nil => rfl
    | cons b bs => simp [natListLt] at h1
  | cons a as ih =>
    cases l2 with
    | nil => simp [natListLt] at h2
    | cons b bs =>
      simp only [natListLt, Bool.or_eq_false_iff, Bool.and_eq_false_iff,
        decide_eq_false_iff_not] at h1 h2
      have hab : a = b := by omega
      subst hab
      rcases h1.2 with h | h
      · omega
      · rcases h2.2 with h' | h'
        · omega
        · rw [ih h h']

theorem natListLt_trans {l1 l2 l3 : List Nat}
    (h1 : natListLt l1 l2 = true) (h2 : natListLt l2 l3 = true) :
    natListLt l1 l3 = true := by
  induction l1 generalizing l2 l3 with
  | nil =>
    cases l3 with
    | nil => cases l2 with
      | nil => exact h1
      | cons b bs => simp [natListLt] at h2
    | cons c cs => rfl
  | cons a as ih =>
    cases l2 with
    | nil => simp [natListLt] at h1
    | cons b bs =>
      cases l3 with
      | nil => simp [natListLt] at h2
      | cons c cs =>
        simp only [natListLt, Bool.or_eq_true, Bool.and_eq_true,
          decide_eq_true_eq] at h1 h2 ⊢
        rcases h1 with h1 | ⟨hab, h1⟩
        · rcases h2 with h2 | ⟨hbc, h2⟩
          · exact Or.inl (by omega)
          · exact Or.inl (by omega)
        · rcases h2 with h2 | ⟨hbc, h2⟩
          · exact Or.inl (by omega)
          · exact Or.inr ⟨by omega, ih h1 h2⟩

/-! ## Canonical tables and `build_metrics` (prepare.py lines 44-108)

`build_metrics` only ever touches the columns `date`, `value`, `region`
and `road_category` of its argument, so its input is modelled as a typed
view: every row carries all four fields, and table-level flags record
which optional columns the DataFrame actually has (a flag being `false`
means the column is absent, and the corresponding row fields are ignored).
-/

/-- One row of the canonical table fed to `build_metrics`. -/
structure CRow where
  date : Date
  value : ℚ
  region : String
  road_category : String
deriving DecidableEq, Repr

/-- The canonical table: rows plus presence flags for the two context
columns `build_metrics` cares about. -/
structure CTable where
  hasRegion : Bool
  hasRoadCategory : Bool
  rows : List CRow
deriving DecidableEq, Repr

/-- Row order used by `out.sort_values(["region", "date"])` (prepare.py
line 51): region (Python string order), then date. -/
def rowLe (a b : CRow) : Prop :=
  natListLt (strCode a.region) (strCode b.region) = true ∨
    (strCode a.region = strCode b.region ∧ Date.leb a.date b.date = true)

instance : DecidableRel rowLe := fun _ _ => instDecidableOr

instance : IsTotal CRow rowLe :=
  ⟨fun a b => by
    unfold rowLe
    rcases h1 : natListLt (strCode a.region) (strCode b.region) with _ | _
    · rcases h2 : natListLt (strCode b.region) (strCode a.region) with _ | _
      · have he := natListLt_asymm_eq h1 h2
        rcases Date.leb_total a.date b.date with hd | hd
        · exact Or.inl (Or.inr ⟨he, hd⟩)
        · exact Or.inr (Or.inr ⟨he.symm, hd⟩)
      · exact Or.inr (Or.inl rfl)
    · exact Or.inl (Or.inl rfl)⟩

instance : IsTrans CRow rowLe :=
  ⟨fun a b c h1 h2 => by
    unfold rowLe at *
    rcases h1 with h1 | ⟨he1, hd1⟩
    · rcases h2 with h2 | ⟨he2, hd2⟩
      · exact Or.inl (natListLt_trans h1 h2)
      · exact Or.inl (he2 ▸ h1)
    · rcases h2 with h2 | ⟨he2, hd2⟩
      · exact Or.inl (he1 ▸ h2)
      · exact Or.inr ⟨he1.trans he2, Date.leb_trans hd1 hd2⟩⟩

/-- `pct_change` then `* 100`: percentage change from `prev` to `cur`
(prepare.py lines 52-53). -/
def changePct (prev cur : ℚ) : ℚ :=
  (cur - prev) / prev * 100

/-- The row `lag` positions earlier within the same-`region` group of the
(sorted) row list, as `groupby("region")["value"].pct_change(lag)` sees it:
`rows.take i` are the rows strictly before position `i`, and the group is
their sub-sequence with the region of `r` (the row at position `i`). -/
def laggedPrev (rows : List CRow) (i : Nat) (r : CRow) (lag : Nat) : Option CRow :=
  if lag ≤ ((rows.take i).filter (fun s => s.region == r.region)).length then
    ((rows.take i).filter (fun s => s.region == r.region)).get?
      (((rows.take i).filter (fun s => s.region == r.region)).length - lag)
  else none

/-- Trailing `rolling(k, min_periods=1).mean()` of `value` within the
same-`region` group, evaluated at position `i` (row `r`). -/
def rollingMean (rows : List CRow) (i : Nat) (r : CRow) (k : Nat) : ℚ :=
  let grp := ((rows.take i).filter (fun s => s.region == r.region)) ++ [r]
  let w := grp.drop (grp.length - k)
  ((w.map (fun s => s.value)).sum) / (w.length : ℚ)

/-- A row of `out` after prepare.py lines 46-57: the canonical fields plus
the derived `year`, `month`, growth and rolling columns.  The growth
columns are `Option` because `pct_change` yields NaN where no lagged row
exists. -/
structure ERow where
  date : Date
  value : ℚ
  region : String
  road_category : String
  year : Nat
  month : Nat
  monthly_change : Option ℚ
  yearly_change : Option ℚ
  rolling_3_month : ℚ
  rolling_12_month : ℚ
deriving DecidableEq, Repr

/-- The enriched row built for position `i` of the sorted row list `S`. -/
def mkERow (S : List CRow) (i : Nat) (r : CRow) : ERow :=
  { date := r.date, value := r.value, region := r.region,
    road_category := r.road_category,
    year := r.date.year, month := r.date.month,
    monthly_change := (laggedPrev S i r 1).map (fun p => changePct p.value r.value),
    yearly_change := (laggedPrev S i r 12).map (fun p => changePct p.value r.value),
    rolling_3_month := rollingMean S i r 3,
    rolling_12_month := rollingMean S i r 12 }

/-- Enrich the suffix `l` of `S` starting at position `n`. -/
def enrichFrom (S : List CRow) : Nat → List CRow → List ERow
  | _, [] => []
  | n, r :: rs => mkERow S n r :: enrichFrom S (n + 1) rs

/-- prepare.py lines 46-57 applied to the already-sorted rows. -/
def enrichRows (S : List CRow) : List ERow :=
  enrichFrom S 0 S

/-- A `groupby` key: `(year, month, region?, road_category?)`; the optional
components are `none` when the corresponding column is absent from the
DataFrame (prepare.py lines 60-64). -/
abbrev GKey := Nat × Nat × Option String × Option String

def gkeyOf (hasRegion hasRC : Bool) (r : ERow) : GKey :=
  (r.year, r.month,
    if hasRegion then some r.region else none,
    if hasRC then some r.road_category else none)

/-- The same grouping key computed directly from a canonical input row. -/
def ckey (hasRegion hasRC : Bool) (r : CRow) : GKey :=
  (r.date.year, r.date.month,
    if hasRegion then some r.region else none,
    if hasRC then some r.road_category else none)

/-- Ascending order on optional strings (key components), Python-style. -/
def optStrLt : Option String → Option String → Bool
  | none, none => false
  | none, some _ => true
  | some _, none => false
  | some a, some b => strLtb a b

def optStrEq : Option String → Option String → Bool
  | none, none => true
  | some a, some b => strCode a == strCode b
  | _, _ => false

/-- Lexicographic ascending order on grouping keys, the order in which
`groupby(...).agg(...).reset_index()` emits its rows (`sort=True`). -/
def keyLe (a b : GKey) : Prop :=
  (decide (a.1 < b.1) ||
    (decide (a.1 = b.1) &&
      (decide (a.2.1 < b.2.1) ||
        (decide (a.2.1 = b.2.1) &&
          (optStrLt a.2.2.1 b.2.2.1 ||
            (optStrEq a.2.2.1 b.2.2.1 &&
              (optStrLt a.2.2.2 b.2.2.2 || optStrEq a.2.2.2 b.2.2.2))))))) = true

instance : DecidableRel keyLe := fun _ _ => instDecidableEqBool _ _

/-- One row of the `monthly` output table.  Field names are the flattened
column names produced by prepare.py lines 78-89 (plus the grouping-key and
post-processing columns). -/
structure MRow where
  year : Nat
  month : Nat
  region : Option String
  road_category : Option String
  traffic_sum : ℚ
  traffic_mean : ℚ
  traffic_median : ℚ
  traffic_count : Nat
  traffic_max : ℚ
  traffic_min : ℚ
  monthly_change_mean : Option ℚ
  yearly_change_mean : Option ℚ
  rolling_3_month_last : ℚ
  rolling_12_month_last : ℚ
  date : Date
  season : Option String
  traffic_intensity : Option String
deriving DecidableEq, Repr

/-- pandas `mean` over a column with NaNs: NaN entries are skipped; the mean
of an all-NaN group is NaN. -/
def nanMean (l : List (Option ℚ)) : Option ℚ :=
  let xs := l.filterMap id
  if xs.isEmpty then none else some (xs.sum / (xs.length : ℚ))

def listMaxQ : List ℚ → ℚ
  | [] => 0
  | x :: xs => xs.foldl max x

def listMinQ : List ℚ → ℚ
  | [] => 0
  | x :: xs => xs.foldl min x

/-- pandas `median`: middle element of the sorted values, or the mean of the
two middle elements for even length (groups are never empty). -/
def medianQ (l : List ℚ) : ℚ :=
  let s := l.insertionSort (fun a b => a ≤ b)
  if s.length % 2 = 1 then s.getD (s.length / 2) 0
  else (s.getD (s.length / 2 - 1) 0 + s.getD (s.length / 2) 0) / 2

/-- The `season` dict-map of prepare.py lines 93-98 (months outside 1-12
would map to NaN). -/
def seasonOf : Nat → Option String
  | 12 | 1 | 2 => some "Winter"
  | 3 | 4 | 5 => some "Spring"
  | 6 | 7 | 8 => some "Summer"
  | 9 | 10 | 11 => some "Autumn"
  | _ => none

/-- `pd.cut(traffic_mean, bins=[0, 30000, 45000, 60000, inf], labels=...)`
(prepare.py lines 101-106): right-closed bins, values ≤ 0 fall outside all
bins and become NaN. -/
def cutIntensity (q : ℚ) : Option String :=
  if 0 < q ∧ q ≤ 30000 then some "Low"
  else if 30000 < q ∧ q ≤ 45000 then some "Medium"
  else if 45000 < q ∧ q ≤ 60000 then some "High"
  else if 60000 < q then some "Very High"
  else none

/-- `.agg({...})` for one group `g` with key `k` (prepare.py lines 66-76):
sum, mean, median, count, max, min of `value`; NaN-skipping mean of the two
growth columns; last of the two rolling columns.  The `date`, `season` and
`traffic_intensity` fields are placeholders filled by `postProcess`. -/
def aggGroup (k : GKey) (g : List ERow) : MRow :=
  let vals := g.map (fun r => r.value)
  let s := vals.sum
  let n := g.length
  { year := k.1, month := k.2.1, region := k.2.2.1, road_category := k.2.2.2,
    traffic_sum := s, traffic_mean := s / (n : ℚ), traffic_median := medianQ vals,
    traffic_count := n, traffic_max := listMaxQ vals, traffic_min := listMinQ vals,
    monthly_change_mean := nanMean (g.map (fun r => r.monthly_change)),
    yearly_change_mean := nanMean (g.map (fun r => r.yearly_change)),
    rolling_3_month_last := ((g.map (fun r => r.rolling_3_month)).getLast?).getD 0,
    rolling_12_month_last := ((g.map (fun r => r.rolling_12_month)).getLast?).getD 0,
    date := ⟨0, 0, 0⟩, season := none, traffic_intensity := none }

/-- prepare.py lines 92-106: synthesize the first-of-month `date`, the
`season` label, and the intensity bucket of `traffic_mean` (the
`"traffic_mean" in monthly.columns` guard always holds, since the `value`
aggregation always produces that column). -/
def postProcess (m : MRow) : MRow :=
  { m with date := ⟨m.year, m.month, 1⟩,
           season := seasonOf m.month,
           traffic_intensity := cutIntensity m.traffic_mean }

/-- The rows of `df` sorted by `["region", "date"]`. -/
def sortedRowsOf (t : CTable) : List CRow :=
  t.rows.insertionSort rowLe

/-- The fully enriched `out` rows (prepare.py lines 46-57). -/
def eRowsOf (t : CTable) : List ERow :=
  enrichRows (sortedRowsOf t)

/-- The distinct grouping keys, in the ascending order `groupby` emits. -/
def gkeysOf (t : CTable) : List GKey :=
  (((eRowsOf t).map (gkeyOf t.hasRegion t.hasRoadCategory)).dedup).insertionSort keyLe

/-- The rows of `out` belonging to group `k`. -/
def groupOf (t : CTable) (k : GKey) : List ERow :=
  (eRowsOf t).filter (fun r => decide (gkeyOf t.hasRegion t.hasRoadCategory r = k))

/-- `build_metrics` from prepare.py lines 44-108.  Line 51,
`out.sort_values(["region", "date"])`, raises `KeyError: 'region'` whenever
the DataFrame has no `region` column; otherwise the function groups by
`(year, month, region[, road_category])` and aggregates. -/
def build_metrics (t : CTable) : Except String (List MRow) :=
  if t.hasRegion = false then
    .error "KeyError: 'region'"
  else
    .ok ((gkeysOf t).map (fun k => postProcess (aggGroup k (groupOf t k))))

/-- The full pipeline `load_raw` then `build_metrics` (prepare.py
`main`, lines 111-119, minus file I/O): the canonical view of the loaded
table is handed to the aggregator. -/
def toCanonical (u : RTable) : CTable :=
  { hasRegion := u.hasCol "region",
    hasRoadCategory := u.hasCol "road_category",
    rows := u.rows.map (fun r =>
      { date := (r.getD (u.idxOf "date") (.str "")).dateOf,
        value := (r.getD (u.idxOf "value") (.str "")).ratOf,
        region := (r.getD (u.idxOf "region") (.str "")).strOf,
        road_category := (r.getD (u.idxOf "road_category") (.str "")).strOf }) }

def pipeline (t : RTable) : Except String (List MRow) :=
  match load_raw t with
  | .error e => .error e
  | .ok u => build_metrics (toCanonical u)

/-! ## Heap-explicit version of `build_metrics`, for the frame property

pandas column assignment (`out["year"] = ...`) mutates the DataFrame object
in place, while `df.copy()` and `sort_values` / `groupby(...).agg(...)`
allocate fresh objects.  To state that `build_metrics` leaves its argument
untouched, the function is re-run over an explicit heap of Python objects:
addresses are list positions, `out = df.copy()` allocates a copy (had it
been the alias `out = df`, every later write would hit address 0), and each
in-place column write is a `List.set` at the written object's address. -/

/-- A pandas DataFrame object living on the heap, at the three shapes the
function uses: the caller's canonical frame, the enriched `out` frame, and
the aggregated `monthly` frame. -/
inductive PdVal where
  | df (t : CTable)
  | dfYM (t : CTable)
  | enriched (hasRegion hasRC : Bool) (rows : List ERow)
  | monthly (rows : List MRow)
deriving DecidableEq, Repr

/-- `build_metrics` with the object heap made explicit.  Returns the final
heap together with the returned value.  Heap addresses: 0 = the caller's
`df`; 1 = `out` after `df.copy()` (line 46), mutated in place by the
`year`/`month` column writes (lines 47-48); 2 = the new frame returned by
`sort_values` (line 51), mutated in place by the growth/rolling column
writes (lines 52-57, folded into one enrichment step); 3 = `monthly`
(line 66), mutated in place by the renaming and the `date`/`season`/
`intensity` writes (lines 89-106). -/
def build_metrics_heap (df : CTable) : List PdVal × Except String (List MRow) :=
  let h0 : List PdVal := [.df df]
  -- out = df.copy()
  let h1 := h0 ++ [h0.getD 0 (.df ⟨false, false, []⟩)]
  match h1.getD 1 (.df ⟨false, false, []⟩) with
  | .df d =>
      -- out["year"] = ..., out["month"] = ...: in-place writes to address 1
      let h2 := h1.set 1 (.dfYM d)
      if d.hasRegion = false then
        (h2, .error "KeyError: 'region'")
      else
        -- out = out.sort_values(["region", "date"]): new object, address 2,
        -- then the in-place pct_change / rolling column writes
        let e := enrichRows (d.rows.insertionSort rowLe)
        let h3 := h2 ++ [.enriched d.hasRegion d.hasRoadCategory e]
        -- monthly = out.groupby(...).agg(...).reset_index(): address 3
        let keys := ((e.map (gkeyOf d.hasRegion d.hasRoadCategory)).dedup).insertionSort keyLe
        let mo := keys.map (fun k =>
          aggGroup k (e.filter (fun r => decide (gkeyOf d.hasRegion d.hasRoadCategory r = k))))
        let h4 := h3 ++ [.monthly mo]
        -- monthly.columns = ...; monthly["date"] = ...; monthly["season"] = ...;
        -- monthly["traffic_intensity"] = ...: in-place writes to address 3
        let mo2 := mo.map postProcess
        let h5 := h4.set 3 (.monthly mo2)
        (h5, .ok mo2)
  | _ => (h1, .error "unreachable")

/-! ## Infrastructure lemmas -/

/-- The canonical fields of an enriched row. -/
def ERow.proj (e : ERow) : CRow :=
  ⟨e.date, e.value, e.region, e.road_category⟩

@[simp] theorem proj_mkERow (S : List CRow) (i : Nat) (r : CRow) :
    (mkERow S i r).proj = r := rfl

@[simp] theorem gkeyOf_mkERow (hR hRC : Bool) (S : List CRow) (i : Nat) (r : CRow) :
    gkeyOf hR hRC (mkERow S i r) = ckey hR hRC r := rfl

theorem enrichFrom_map_proj (S : List CRow) :
    ∀ (n : Nat) (l : List CRow), (enrichFrom S n l).map ERow.proj = l := by
  intro n l
  induction l generalizing n with
  | nil => rfl
  | cons r rs ih => simp [enrichFrom, ih]

theorem enrichFrom_get? (S : List CRow) :
    ∀ (n : Nat) (l : List CRow) (j : Nat),
      (enrichFrom S n l).get? j = (l.get? j).map (fun r => mkERow S (n + j) r) := by
  intro n l
  induction l generalizing n with
  | nil => intro j; rfl
  | cons r rs ih =>
    intro j
    cases j with
    | zero => rfl
    | succ j =>
      have harith : n + 1 + j = n + (j + 1) := by omega
      simp only [enrichFrom, List.get?_cons_succ, ih (n + 1) j, harith]

theorem eRowsOf_map_proj (t : CTable) :
    (eRowsOf t).map ERow.proj = sortedRowsOf t :=
  enrichFrom_map_proj _ 0 _

theorem eRowsOf_get? (t : CTable) (j : Nat) :
    (eRowsOf t).get? j =
      ((sortedRowsOf t).get? j).map (fun r => mkERow (sortedRowsOf t) j r) := by
  simpa using enrichFrom_get? (sortedRowsOf t) 0 (sortedRowsOf t) j

theorem sortedRowsOf_perm (t : CTable) : (sortedRowsOf t).Perm t.rows :=
  List.perm_insertionSort _ _

theorem mem_eRowsOf {t : CTable} {e : ERow} (he : e ∈ eRowsOf t) :
    ∃ i r, (sortedRowsOf t).get? i = some r ∧ e = mkERow (sortedRowsOf t) i r := by
  obtain ⟨i, hi⟩ := List.mem_iff_get?.mp he
  rw [eRowsOf_get? t i] at hi
  cases hr : (sortedRowsOf t).get? i with
  | none => rw [hr] at hi; exact absurd hi (by simp)
  | some r =>
    rw [hr] at hi
    exact ⟨i, r, hr, by simpa using hi.symm⟩

theorem build_metrics_ok {t : CTable} {out : List MRow}
    (h : build_metrics t = .ok out) :
    t.hasRegion = true ∧
      out = (gkeysOf t).map (fun k => postProcess (aggGroup k (groupOf t k))) := by
  by_cases hr : t.hasRegion = false
  · rw [build_metrics, if_pos hr] at h
    exact absurd h (by simp)
  · rw [build_metrics, if_neg hr] at h
    refine ⟨by simpa using hr, ?_⟩
    exact (Except.ok.injEq _ _ ▸ h).symm

theorem mem_gkeysOf {t : CTable} {k : GKey} :
    k ∈ gkeysOf t ↔ ∃ e ∈ eRowsOf t, gkeyOf t.hasRegion t.hasRoadCategory e = k := by
  unfold gkeysOf
  rw [(List.perm_insertionSort keyLe _).mem_iff, List.mem_dedup, List.mem_map]

/-- The grouping key recorded in an output row. -/
def keyOfM (m : MRow) : GKey :=
  (m.year, m.month, m.region, m.road_category)

@[simp] theorem keyOfM_post_agg (k : GKey) (g : List ERow) :
    keyOfM (postProcess (aggGroup k g)) = k := rfl

@[simp] theorem post_traffic_sum (m : MRow) :
    (postProcess m).traffic_sum = m.traffic_sum := rfl

@[simp] theorem post_traffic_count (m : MRow) :
    (postProcess m).traffic_count = m.traffic_count := rfl

@[simp] theorem post_traffic_mean (m : MRow) :
    (postProcess m).traffic_mean = m.traffic_mean := rfl

@[simp] theorem post_monthly_change_mean (m : MRow) :
    (postProcess m).monthly_change_mean = m.monthly_change_mean := rfl

@[simp] theorem agg_traffic_sum (k : GKey) (g : List ERow) :
    (aggGroup k g).traffic_sum = (g.map (fun r => r.value)).sum := rfl

@[simp] theorem agg_traffic_count (k : GKey) (g : List ERow) :
    (aggGroup k g).traffic_count = g.length := rfl

@[simp] theorem agg_traffic_mean (k : GKey) (g : List ERow) :
    (aggGroup k g).traffic_mean = (g.map (fun r => r.value)).sum / (g.length : ℚ) := rfl

@[simp] theorem agg_monthly_change_mean (k : GKey) (g : List ERow) :
    (aggGroup k g).monthly_change_mean = nanMean (g.map (fun r => r.monthly_change)) := rfl

/-- The group of canonical input rows sharing the grouping key `k`. -/
def inputGroup (t : CTable) (k : GKey) : List CRow :=
  t.rows.filter (fun r => decide (ckey t.hasRegion t.hasRoadCategory r = k))

theorem groupOf_map_proj (t : CTable) (k : GKey) :
    (groupOf t k).map ERow.proj =
      (sortedRowsOf t).filter (fun r => decide (ckey t.hasRegion t.hasRoadCategory r = k)) := by
  unfold groupOf
  have hcongr :
      (eRowsOf t).filter (fun e => decide (gkeyOf t.hasRegion t.hasRoadCategory e = k)) =
        (eRowsOf t).filter
          (fun e => decide (ckey t.hasRegion t.hasRoadCategory e.proj = k)) := by
    refine List.filter_congr (fun e he => ?_)
    obtain ⟨i, r, _, rfl⟩ := mem_eRowsOf he
    simp
  rw [hcongr, ← eRowsOf_map_proj t, List.filter_map]
  rfl

theorem groupOf_perm (t : CTable) (k : GKey) :
    ((groupOf t k).map ERow.proj).Perm (inputGroup t k) := by
  rw [groupOf_map_proj]
  exact (sortedRowsOf_perm t).filter _

theorem groupOf_values (t : CTable) (k : GKey) :
    ((groupOf t k).map (fun e => e.value)).sum =
      ((inputGroup t k).map (fun r => r.value)).sum := by
  have h1 : (groupOf t k).map (fun e => e.value) =
      ((groupOf t k).map ERow.proj).map (fun r => r.value) := by
    rw [List.map_map]; rfl
  rw [h1]
  exact ((groupOf_perm t k).map _).sum_eq

theorem groupOf_length (t : CTable) (k : GKey) :
    (groupOf t k).length = (inputGroup t k).length := by
  have h1 : (groupOf t k).length = ((groupOf t k).map ERow.proj).length := by
    simp
  rw [h1, (groupOf_perm t k).length_eq]

/-! ## Claim theorems -/

/-- C1: for every group of canonical rows sharing the same
(year, month[, context]) grouping key, the aggregate row produced by
`build_metrics` has `sum` equal to the arithmetic sum of the group's
`value`s, `count` equal to the number of rows in the group, and `mean`
equal to `sum / count`.  Stated both ways: every output row's statistics
match its group of input rows, and every input row's group key is
represented by an output row. -/
theorem c1_build_metrics_group_stats (t : CTable) (out : List MRow)
    (h : build_metrics t = .ok out) :
    (∀ m ∈ out,
        m.traffic_sum = ((inputGroup t (keyOfM m)).map (fun r => r.value)).sum ∧
        m.traffic_count = (inputGroup t (keyOfM m)).length ∧
        m.traffic_mean = m.traffic_sum / (m.traffic_count : ℚ)) ∧
    (∀ r ∈ t.rows, ∃ m ∈ out, keyOfM m = ckey t.hasRegion t.hasRoadCategory r) := by
  obtain ⟨hReg, hout⟩ := build_metrics_ok h
  constructor
  · intro m hm
    rw [hout, List.mem_map] at hm
    obtain ⟨k, hk, rfl⟩ := hm
    refine ⟨?_, ?_, ?_⟩
    · simp [groupOf_values]
    · simp [groupOf_length]
    · simp
  · intro r hr
    have hrs : r ∈ sortedRowsOf t := ((sortedRowsOf_perm t).mem_iff).mpr hr
    obtain ⟨i, hi⟩ := List.mem_iff_get?.mp hrs
    have he : mkERow (sortedRowsOf t) i r ∈ eRowsOf t := by
      apply List.get?_mem (n := i)
      rw [eRowsOf_get? t i, hi]
      rfl
    have hkmem : ckey t.hasRegion t.hasRoadCategory r ∈ gkeysOf t :=
      mem_gkeysOf.mpr ⟨_, he, rfl⟩
    refine ⟨postProcess (aggGroup (ckey t.hasRegion t.hasRoadCategory r)
      (groupOf t (ckey t.hasRegion t.hasRoadCategory r))), ?_, keyOfM_post_agg _ _⟩
    rw [hout]
    exact List.mem_map_of_mem _ hkmem

/-- The DataFrame built by `tests/test_metrics.py` (`test_build_metrics`):
columns `date` and `value` only, rows `(2024-01-01, 10)`, `(2024-01-15, 20)`,
`(2024-02-01, 30)`. -/
def testMetricsDf : CTable :=
  { hasRegion := false, hasRoadCategory := false,
    rows := [⟨⟨2024, 1, 1⟩, 10, "", ""⟩,
             ⟨⟨2024, 1, 15⟩, 20, "", ""⟩,
             ⟨⟨2024, 2, 1⟩, 30, "", ""⟩] }

/-- C2: the claim says `build_metrics` succeeds on every canonical table,
including one with only `date` and `value` columns (as the repository's own
`test_build_metrics` assumes).  The code instead raises `KeyError: 'region'`
at `out.sort_values(["region", "date"])` (prepare.py line 51) on exactly
that input, because no `region` column exists. -/
theorem c2_build_metrics_keyerror_on_test_input :
    build_metrics testMetricsDf = .error "KeyError: 'region'" := by rfl

/-- A header-only CSV: columns `date` and `value`, no data rows. -/
def emptyHeaderCsv : RTable :=
  { cols := ["date", "value"], rows := [] }

/-- C4: the claim says the pipeline maps an empty (header-only) input to an
empty output table without error.  `load_raw` does succeed on the
header-only input, but `build_metrics` then raises `KeyError: 'region'`
(prepare.py line 51), so the pipeline errors instead of returning an empty
table. -/
theorem c4_empty_pipeline_keyerror :
    (load_raw emptyHeaderCsv).isOk = true ∧
      pipeline emptyHeaderCsv = .error "KeyError: 'region'" := by
  exact ⟨rfl, rfl⟩

/-- C10: `build_metrics` never mutates its argument.  Running the
heap-explicit version of the function, the caller's DataFrame (heap
address 0) still holds exactly the input table when the function returns:
the only objects written are the `df.copy()` at address 1 and the fresh
frames the pipeline allocates.  The returned value agrees with
`build_metrics`. -/
theorem c10_build_metrics_no_mutation (df : CTable) :
    (build_metrics_heap df).1.getD 0 (.df ⟨false, false, []⟩) = .df df ∧
      (build_metrics_heap df).2 = build_metrics df := by
  by_cases hr : df.hasRegion = false
  · constructor
    · simp [build_metrics_heap, hr]
    · simp [build_metrics_heap, build_metrics, hr]
  · constructor
    · simp [build_metrics_heap, hr]
    · simp [build_metrics_heap, build_metrics, hr, gkeysOf, groupOf, eRowsOf,
        sortedRowsOf, enrichRows, List.map_map]

/-! ## `load_raw` destructors -/

@[simp] theorem rename_cols (t : RTable) (old new : String) :
    (t.rename old new).cols = t.cols.map (fun c => if c == old then new else c) := rfl

@[simp] theorem rename_rows (t : RTable) (old new : String) :
    (t.rename old new).rows = t.rows := rfl

theorem toDatetimeCol_ok_cols {t : RTable} {c : String} {u : RTable}
    (h : t.toDatetimeCol c = .ok u) : u.cols = t.cols := by
  unfold RTable.toDatetimeCol at h
  cases hm : convertRows (t.idxOf c) t.rows with
  | none => rw [hm] at h; exact absurd h (by simp)
  | some rs =>
    rw [hm] at h
    cases h
    rfl

theorem keepStage_cols (t2 : RTable) :
    (keepStage t2).cols = ["date", "value"] ++ NVDB_COLS.filter (fun c => t2.hasCol c) := rfl

theorem load_raw_ok {t u : RTable} (h : load_raw t = .ok u) :
    ∃ t1 t2, dateStage t = .ok t1 ∧ t1.hasCol "date" = true ∧
      valueStage t1 = .ok t2 ∧ u = keepStage t2 := by
  rw [load_raw] at h
  cases hd : dateStage t with
  | error e => rw [hd] at h; simp [Bind.bind, Except.bind] at h
  | ok t1 =>
    rw [hd] at h
    simp only [Bind.bind, Except.bind] at h
    by_cases hdate : t1.hasCol "date"
    · rw [hdate] at h
      simp only [Bool.not_true, Bool.false_eq_true, if_false] at h
      cases hv : valueStage t1 with
      | error e => rw [hv] at h; simp [Functor.map, Except.map] at h
      | ok t2 =>
        rw [hv] at h
        simp only [Functor.map, Except.map, pure, Except.pure, Except.ok.injEq] at h
        exact ⟨t1, t2, rfl, hdate, hv, h.symm⟩
    · rw [Bool.not_eq_true] at hdate
      rw [hdate] at h
      simp [throw, throwThe, MonadExceptOf.throw] at h

theorem valueStage_ok {t1 t2 : RTable} (h : valueStage t1 = .ok t2) :
    (t1.hasCol "value" = true ∧ t2 = t1) ∨
      (t1.hasCol "value" = false ∧
        ∃ c rest, t1.cols.filter (fun n => t1.isNumericCol n) = c :: rest ∧
          t2 = t1.rename c "value") := by
  by_cases hv : t1.hasCol "value"
  · left
    refine ⟨hv, ?_⟩
    unfold valueStage at h
    rw [if_pos hv] at h
    cases h
    rfl
  · right
    rw [Bool.not_eq_true] at hv
    refine ⟨hv, ?_⟩
    unfold valueStage at h
    rw [hv] at h
    simp only [Bool.false_eq_true, if_false] at h
    cases hf : t1.cols.filter (fun n => t1.isNumericCol n) with
    | nil => rw [hf] at h; exact absurd h (by simp [throw, throwThe, MonadExceptOf.throw])
    | cons c rest =>
      rw [hf] at h
      refine ⟨c, rest, rfl, ?_⟩
      cases h
      rfl

/-- C9: every canonical table produced by `load_raw` has exactly one `date`
column and exactly one `value` column, and all its other columns belong to
the fixed NVDB context vocabulary. -/
theorem c9_canonical_columns (t u : RTable) (h : load_raw t = .ok u) :
    u.cols.count "date" = 1 ∧ u.cols.count "value" = 1 ∧
      ∀ c ∈ u.cols, c = "date" ∨ c = "value" ∨ c ∈ NVDB_COLS := by
  obtain ⟨t1, t2, _, _, _, rfl⟩ := load_raw_ok h
  rw [keepStage_cols]
  have hnd : ("date" : String) ∉ NVDB_COLS := by decide
  have hnv : ("value" : String) ∉ NVDB_COLS := by decide
  refine ⟨?_, ?_, ?_⟩
  · rw [List.count_append]
    have h0 : (NVDB_COLS.filter (fun c => t2.hasCol c)).count "date" = 0 :=
      List.count_eq_zero.mpr (fun hmem => hnd (List.mem_of_mem_filter hmem))
    rw [h0]
    decide
  · rw [List.count_append]
    have h0 : (NVDB_COLS.filter (fun c => t2.hasCol c)).count "value" = 0 :=
      List.count_eq_zero.mpr (fun hmem => hnv (List.mem_of_mem_filter hmem))
    rw [h0]
    decide
  · intro c hc
    rcases List.mem_append.mp hc with h1 | h2
    · rcases h1 with _ | ⟨_, _ | ⟨_, h⟩⟩
      · exact Or.inl rfl
      · exact Or.inr (Or.inl rfl)
      · exact absurd h (List.not_mem_nil c)
    · exact Or.inr (Or.inr (List.mem_of_mem_filter h2))

/-- C7 (amended): the canonical table returned by `load_raw` is sorted
ascending by `date` — prepare.py line 41 sorts by `date` only, with no
region-first ordering (see the counterexample for the dropped half of the
claim). -/
theorem c7_sorted_by_date (t u : RTable) (h : load_raw t = .ok u) :
    List.Sorted (rowDateLe (u.idxOf "date")) u.rows := by
  obtain ⟨t1, t2, _, _, _, rfl⟩ := load_raw_ok h
  exact List.sorted_insertionSort _ _

/-! ## Column bookkeeping lemmas for `load_raw` -/

theorem hasCol_iff_mem {t : RTable} {n : String} : t.hasCol n = true ↔ n ∈ t.cols :=
  ⟨List.mem_of_elem_eq_true, List.elem_eq_true_of_mem⟩

theorem getD_of_get? {α : Type} {l : List α} {n : Nat} {d x : α}
    (h : l.get? n = some x) : l.getD n d = x := by
  induction l generalizing n with
  | nil => simp at h
  | cons a as ih =>
    cases n with
    | zero => cases h; rfl
    | succ n => exact ih (by simpa using h)

theorem indexOf_map_iff {f : String → String} {v : String}
    (hf : ∀ c, f c = v ↔ c = v) :
    ∀ l : List String, (l.map f).indexOf v = l.indexOf v := by
  intro l
  induction l with
  | nil => rfl
  | cons c cs ih =>
    by_cases hc : c = v
    · rw [List.map_cons, List.indexOf_cons_eq _ ((hf c).mpr hc), List.indexOf_cons_eq _ hc]
    · rw [List.map_cons, List.indexOf_cons_ne _ (fun he => hc ((hf c).mp he)),
        List.indexOf_cons_ne _ hc, ih]

theorem indexOf_map_rename {old new : String} :
    ∀ l : List String, new ∉ l →
      (l.map (fun c => if c == old then new else c)).indexOf new = l.indexOf old := by
  intro l
  induction l with
  | nil => intro _; rfl
  | cons c cs ih =>
    intro hnew
    by_cases hc : c = old
    · subst hc
      rw [List.map_cons, if_pos (by simp), List.indexOf_cons_eq _ rfl,
        List.indexOf_cons_eq _ rfl]
    · have hcnew : c ≠ new := fun he => hnew (he ▸ List.mem_cons_self c cs)
      rw [List.map_cons, if_neg (by simpa using hc), List.indexOf_cons_ne _ hcnew,
        List.indexOf_cons_ne _ hc, ih (fun hm => hnew (List.mem_cons_of_mem c hm))]

theorem convertCells_get? {i : Nat} :
    ∀ (cs : List Cell) (n : Nat) (cs' : List Cell), convertCells i n cs = some cs' →
      cs'.length = cs.length ∧ ∀ j, n + j ≠ i → cs'.get? j = cs.get? j := by
  intro cs
  induction cs with
  | nil =>
    intro n cs' h
    cases h
    exact ⟨rfl, fun _ _ => rfl⟩
  | cons c rest ih =>
    intro n cs' h
    unfold convertCells at h
    cases hc : (if n = i then c.toDatetime else some c) with
    | none => rw [hc] at h; simp at h
    | some c' =>
      rw [hc] at h
      cases hr : convertCells i (n + 1) rest with
      | none => rw [hr] at h; simp at h
      | some rest' =>
        rw [hr] at h
        simp only [Option.some.injEq] at h
        cases h
        obtain ⟨hlen, hget⟩ := ih (n + 1) rest' hr
        refine ⟨by simpa using hlen, ?_⟩
        intro j hj
        cases j with
        | zero =>
          have hni : ¬n = i := by omega
          rw [if_neg hni] at hc
          cases hc
          rfl
        | succ j =>
          have : (n + 1) + j ≠ i := by omega
          simpa using hget j this

theorem convertRows_map_getD {i j : Nat} (hij : j ≠ i) :
    ∀ (rs rs' : List (List Cell)), convertRows i rs = some rs' →
      rs'.map (fun r => r.getD j (.str "")) = rs.map (fun r => r.getD j (.str "")) := by
  intro rs
  induction rs with
  | nil =>
    intro rs' h
    cases h
    rfl
  | cons r rest ih =>
    intro rs' h
    unfold convertRows at h
    cases hc : convertCells i 0 r with
    | none => rw [hc] at h; simp at h
    | some r' =>
      rw [hc] at h
      cases hr : convertRows i rest with
      | none => rw [hr] at h; simp at h
      | some rest' =>
        rw [hr] at h
        simp only [Option.some.injEq] at h
        cases h
        obtain ⟨hlen, hget⟩ := convertCells_get? r 0 r' hc
        have hcell : r'.getD j (.str "") = r.getD j (.str "") := by
          cases hg : r.get? j with
          | none =>
            have hle : r.length ≤ j := by
              by_contra hlt
              push_neg at hlt
              rw [List.get?_eq_get hlt] at hg
              exact absurd hg (by simp)
            rw [List.getD_eq_default _ _ hle, List.getD_eq_default _ _ (hlen ▸ hle)]
          | some x =>
            have : r'.get? j = some x := by rw [hget j (by omega)]; exact hg
            rw [getD_of_get? this, getD_of_get? hg]
        rw [List.map_cons, List.map_cons, hcell, ih rest' hr]

/-- Columns untouched by the date conversion/renaming keep their name,
position and cells through `dateStage`. -/
theorem dateStage_preserves {t t1 : RTable} (h : dateStage t = .ok t1)
    (n : String) (hncand : n ∉ DATE_COL_CANDIDATES) (hnd : n ≠ "date")
    (hmem : t.hasCol n = true) :
    t1.hasCol n = true ∧ t1.colCells n = t.colCells n := by
  unfold dateStage at h
  cases hf : DATE_COL_CANDIDATES.find? (fun c => t.hasCol c) with
  | none =>
    rw [hf] at h
    cases h
    exact ⟨hmem, rfl⟩
  | some c =>
    rw [hf] at h
    replace h : Except.map (fun u => u.rename c "date") (t.toDatetimeCol c) =
        Except.ok t1 := h
    have hcc : c ∈ DATE_COL_CANDIDATES := List.mem_of_find?_eq_some hf
    have hcn : c ≠ n := fun he => hncand (he ▸ hcc)
    cases hd : t.toDatetimeCol c with
    | error e => rw [hd] at h; simp [Except.map] at h
    | ok u =>
      rw [hd] at h
      simp only [Except.map, Except.ok.injEq] at h
      subst h
      have hcols : u.cols = t.cols := toDatetimeCol_ok_cols hd
      have hfiff : ∀ x : String, (if x == c then "date" else x) = n ↔ x = n := by
        intro x
        by_cases hx : x = c
        · subst hx
          rw [if_pos (by simp)]
          exact ⟨fun he => absurd he.symm hnd, fun he => absurd he hcn⟩
        · rw [if_neg (by simpa using hx)]
      constructor
      · rw [hasCol_iff_mem]
        rw [hasCol_iff_mem] at hmem
        simp only [rename_cols, hcols]
        exact List.mem_map.mpr ⟨n, hmem, (hfiff n).mpr rfl⟩
      · -- position of n is unchanged by the rename and differs from the
        -- converted column's position, so the cells are untouched
        have hidx1 : (u.rename c "date").idxOf n = t.idxOf n := by
          unfold RTable.idxOf
          rw [rename_cols, hcols]
          exact indexOf_map_iff hfiff t.cols
        have hmemc : c ∈ t.cols := hasCol_iff_mem.mp (List.find?_some hf)
        have hmemn : n ∈ t.cols := hasCol_iff_mem.mp hmem
        have hne : t.idxOf n ≠ t.idxOf c := by
          intro he
          have h1 : t.cols.get ⟨t.cols.indexOf n, List.indexOf_lt_length.mpr hmemn⟩ = n :=
            List.indexOf_get _
          have h2 : t.cols.get ⟨t.cols.indexOf c, List.indexOf_lt_length.mpr hmemc⟩ = c :=
            List.indexOf_get _
          unfold RTable.idxOf at he
          rw [← h1, ← h2] at hcn
          exact hcn (by congr 1; exact Fin.ext he.symm)
        unfold RTable.toDatetimeCol at hd
        cases hm : convertRows (t.idxOf c) t.rows with
        | none => rw [hm] at hd; exact absurd hd (by simp)
        | some rs =>
          rw [hm] at hd
          cases hd
          unfold RTable.colCells
          simp only [rename_rows, hidx1]
          exact convertRows_map_getD hne t.rows rs hm

theorem dateStage_hasCol_false {t t1 : RTable} (h : dateStage t = .ok t1)
    {n : String} (hncand : n ∉ DATE_COL_CANDIDATES) (hnd : n ≠ "date")
    (hnot : t.hasCol n = false) : t1.hasCol n = false := by
  unfold dateStage at h
  cases hf : DATE_COL_CANDIDATES.find? (fun c => t.hasCol c) with
  | none => rw [hf] at h; cases h; exact hnot
  | some c =>
    rw [hf] at h
    replace h : Except.map (fun u => u.rename c "date") (t.toDatetimeCol c) =
        Except.ok t1 := h
    cases hd : t.toDatetimeCol c with
    | error e => rw [hd] at h; simp [Except.map] at h
    | ok u =>
      rw [hd] at h
      simp only [Except.map, Except.ok.injEq] at h
      subst h
      by_contra hne
      rw [Bool.not_eq_false, hasCol_iff_mem, rename_cols, toDatetimeCol_ok_cols hd] at hne
      obtain ⟨x, hx, hfx⟩ := List.mem_map.mp hne
      have hcc : c ∈ DATE_COL_CANDIDATES := List.mem_of_find?_eq_some hf
      by_cases hxc : x = c
      · subst hxc
        rw [if_pos (by simp)] at hfx
        exact hnd hfx.symm
      · rw [if_neg (by simpa using hxc)] at hfx
        subst hfx
        rw [hasCol_iff_mem.mpr hx] at hnot
        exact absurd hnot (by simp)

theorem sortOn_colCells_perm (t : RTable) (c n : String) :
    ((t.sortOn c).colCells n).Perm (t.colCells n) := by
  unfold RTable.sortOn RTable.colCells RTable.idxOf
  exact (List.perm_insertionSort _ _).map _

theorem select_colCells_value (t2 : RTable) :
    (t2.select (["date", "value"] ++ NVDB_COLS.filter (fun c => t2.hasCol c))).colCells
        "value" = t2.colCells "value" := by
  unfold RTable.colCells RTable.select RTable.idxOf
  simp only [List.map_map]
  refine List.map_congr_left (fun r _ => ?_)
  have hidx : (["date", "value"] ++
      NVDB_COLS.filter (fun c => t2.hasCol c)).indexOf "value" = 1 := by
    show ("date" :: "value" :: NVDB_COLS.filter (fun c => t2.hasCol c)).indexOf "value" = 1
    rw [List.indexOf_cons_ne _ (by decide), List.indexOf_cons_self]
  have hget : (["date", "value"] ++ NVDB_COLS.filter (fun c => t2.hasCol c)).get? 1 =
      some "value" := rfl
  simp only [Function.comp, hidx]
  exact getD_of_get? (by rw [List.get?_map, hget]; rfl)

theorem keepStage_colCells_value (t2 : RTable) :
    ((keepStage t2).colCells "value").Perm (t2.colCells "value") := by
  unfold keepStage
  exact (sortOn_colCells_perm _ "date" "value").trans
    (select_colCells_value t2 ▸ List.Perm.refl _)

theorem rename_colCells_to_value {t1 : RTable} (c0 : String)
    (hnot : t1.hasCol "value" = false) :
    (t1.rename c0 "value").colCells "value" = t1.colCells c0 := by
  have hmem : "value" ∉ t1.cols := by
    intro hm
    rw [hasCol_iff_mem.mpr hm] at hnot
    exact absurd hnot (by simp)
  have hidx : (t1.rename c0 "value").idxOf "value" = t1.idxOf c0 := by
    unfold RTable.idxOf
    rw [rename_cols]
    exact indexOf_map_rename t1.cols hmem
  unfold RTable.colCells
  rw [rename_rows, hidx]

/-! ## `dateStage` characterization used by C5 -/

theorem load_raw_noDate {t : RTable}
    (hf : DATE_COL_CANDIDATES.find? (fun c => t.hasCol c) = none) :
    load_raw t = .error "Could not find a date column. Add 'date' to your CSV." := by
  have hds : dateStage t = .ok t := by unfold dateStage; rw [hf]
  have hdate : t.hasCol "date" = false := by
    simpa using List.find?_eq_none.mp hf "date" (by decide)
  rw [load_raw, hds]
  simp [Bind.bind, Except.bind, hdate, throw, throwThe, MonadExceptOf.throw]

theorem dateStage_hasDate {t t1 : RTable} {c : String}
    (hf : DATE_COL_CANDIDATES.find? (fun n => t.hasCol n) = some c)
    (h : dateStage t = .ok t1) : t1.hasCol "date" = true := by
  unfold dateStage at h
  rw [hf] at h
  replace h : Except.map (fun u => u.rename c "date") (t.toDatetimeCol c) =
      Except.ok t1 := h
  cases hd : t.toDatetimeCol c with
  | error e => rw [hd] at h; simp [Except.map] at h
  | ok u =>
    rw [hd] at h
    simp only [Except.map, Except.ok.injEq] at h
    subst h
    rw [hasCol_iff_mem, rename_cols, toDatetimeCol_ok_cols hd]
    have hcmem : c ∈ t.cols := hasCol_iff_mem.mp (List.find?_some hf)
    exact List.mem_map.mpr ⟨c, hcmem, by simp⟩

theorem load_raw_eq {t t1 : RTable} (hd : dateStage t = .ok t1)
    (hdate : t1.hasCol "date" = true) :
    load_raw t = Except.map keepStage (valueStage t1) := by
  rw [load_raw, hd]
  cases hv : valueStage t1 with
  | error e => simp [Bind.bind, Except.bind, hdate, hv, Except.map]
  | ok t2 => simp [Bind.bind, Except.bind, hdate, hv, Except.map, pure, Except.pure]

/-- C5 (amended): `load_raw` raises
`ValueError("Could not find a date column. Add 'date' to your CSV.")` — not
`SchemaError("no date column")` — exactly when none of `date`, `timestamp`,
`datetime` is present; once a date candidate is found (and its values
parse), it raises
`ValueError("No numeric column found. Add a 'value' column to your CSV.")`
exactly when there is neither a `value` column nor a numeric column, and
succeeds otherwise. -/
theorem c5_schema_error_amended (t : RTable) :
    (DATE_COL_CANDIDATES.find? (fun c => t.hasCol c) = none →
        load_raw t = .error "Could not find a date column. Add 'date' to your CSV.") ∧
    (∀ t1, dateStage t = .ok t1 →
      ∀ c, DATE_COL_CANDIDATES.find? (fun n => t.hasCol n) = some c →
        ((t1.hasCol "value" = false →
            t1.cols.filter (fun n => t1.isNumericCol n) = [] →
            load_raw t =
              .error "No numeric column found. Add a 'value' column to your CSV.") ∧
          ((t1.hasCol "value" = true ∨
              t1.cols.filter (fun n => t1.isNumericCol n) ≠ []) →
            (load_raw t).isOk = true))) := by
  constructor
  · exact load_raw_noDate
  · intro t1 hd c hf
    have hdate := dateStage_hasDate hf hd
    have heq := load_raw_eq hd hdate
    constructor
    · intro hv hfil
      rw [heq]
      unfold valueStage
      rw [hv, hfil]
      simp [throw, throwThe, MonadExceptOf.throw, Except.map]
    · intro hok
      rw [heq]
      by_cases hv : t1.hasCol "value"
      · unfold valueStage
        rw [hv]
        simp [pure, Except.pure, Except.map, Except.isOk, Except.toBool]
      · rw [Bool.not_eq_true] at hv
        cases hfil : t1.cols.filter (fun n => t1.isNumericCol n) with
        | nil =>
          rcases hok with h1 | h2
          · rw [hv] at h1; exact absurd h1 (by simp)
          · exact absurd hfil h2
        | cons c0 rest =>
          unfold valueStage
          rw [hv, hfil]
          simp [pure, Except.pure, Except.map, Except.isOk, Except.toBool]

/-- An input with no date-candidate column at all. -/
def c5Raw : RTable := { cols := ["foo"], rows := [[.num 1]] }

/-- C5 (counterexample): on a table with no date candidate, `load_raw` does
fail, but the error is the `ValueError` message from prepare.py line 23, not
the claimed typed `SchemaError("no date column")`. -/
theorem c5_schema_error_counterexample :
    (DATE_COL_CANDIDATES.all (fun c => !(c5Raw.hasCol c))) = true ∧
      load_raw c5Raw ≠ .error "no date column" ∧
      load_raw c5Raw = .error "Could not find a date column. Add 'date' to your CSV." :=
  ⟨by decide, by decide, by decide⟩

/-! ## C7 counterexample: no region-then-date ordering -/

/-- Boolean pairwise-sortedness of a row list. -/
def rowsPairwiseB (le : List Cell → List Cell → Bool) : List (List Cell) → Bool
  | [] => true
  | [_] => true
  | r1 :: r2 :: rest => le r1 r2 && rowsPairwiseB le (r2 :: rest)

/-- Row order "region first, then date" (the order the claim asserts). -/
def regionDateLeB (ireg idx : Nat) (r1 r2 : List Cell) : Bool :=
  let g1 := strCode ((r1.getD ireg (.str "")).strOf)
  let g2 := strCode ((r2.getD ireg (.str "")).strOf)
  natListLt g1 g2 ||
    (g1 == g2 &&
      Date.leb ((r1.getD idx (.str "")).dateOf) ((r2.getD idx (.str "")).dateOf))

/-- A raw table with a `region` column whose date order differs from the
region-then-date order. -/
def c7Raw : RTable :=
  { cols := ["date", "value", "region"],
    rows := [[.date ⟨2024, 1, 2⟩, .num 5, .str "A"],
             [.date ⟨2024, 1, 1⟩, .num 7, .str "B"]] }

/-- The table `load_raw` actually returns for `c7Raw`: sorted by date only. -/
def c7Out : RTable :=
  { cols := ["date", "value", "region"],
    rows := [[.date ⟨2024, 1, 1⟩, .num 7, .str "B"],
             [.date ⟨2024, 1, 2⟩, .num 5, .str "A"]] }

/-- C7 (counterexample): with a `region` column present, the output of
`load_raw` is *not* sorted by region first and date second — prepare.py
line 41 sorts by `date` only. -/
theorem c7_region_sort_counterexample :
    c7Raw.hasCol "region" = true ∧
      load_raw c7Raw = .ok c7Out ∧
      rowsPairwiseB (regionDateLeB (c7Out.idxOf "region") (c7Out.idxOf "date"))
        c7Out.rows = false :=
  ⟨by decide, by decide, by decide⟩

/-- C8: if a `value` column exists in the raw table, it is used as the
measure unchanged (the output `value` column carries exactly the input
`value` column's cells, reordered only by the date sort); if not, the first
numeric column of the date-converted table, in declaration order, becomes
`value`.  Either way the output has exactly one `value` column. -/
theorem c8_value_column_selection (t u : RTable) (h : load_raw t = .ok u) :
    u.cols.count "value" = 1 ∧
      (t.hasCol "value" = true → (u.colCells "value").Perm (t.colCells "value")) ∧
      (t.hasCol "value" = false →
        ∃ t1 c rest, dateStage t = .ok t1 ∧
          t1.cols.filter (fun n => t1.isNumericCol n) = c :: rest ∧
          (u.colCells "value").Perm (t1.colCells c)) := by
  obtain ⟨t1, t2, hd, hdate, hv, rfl⟩ := load_raw_ok h
  refine ⟨?_, ?_, ?_⟩
  · rw [keepStage_cols, List.count_append]
    have h0 : (NVDB_COLS.filter (fun c => t2.hasCol c)).count "value" = 0 :=
      List.count_eq_zero.mpr
        (fun hmem => (by decide : ("value" : String) ∉ NVDB_COLS)
          (List.mem_of_mem_filter hmem))
    rw [h0]
    decide
  · intro hvt
    have hpres := dateStage_preserves hd "value" (by decide) (by decide) hvt
    rcases valueStage_ok hv with ⟨hv1, heq⟩ | ⟨hv1, _⟩
    · subst heq
      refine (keepStage_colCells_value t2).trans ?_
      rw [hpres.2]
    · rw [hpres.1] at hv1
      exact absurd hv1 (by simp)
  · intro hvf
    have hv1 : t1.hasCol "value" = false :=
      dateStage_hasCol_false hd (by decide) (by decide) hvf
    rcases valueStage_ok hv with ⟨hv2, _⟩ | ⟨_, c0, rest, hfil, rfl⟩
    · rw [hv1] at hv2; exact absurd hv2 (by simp)
    · refine ⟨t1, c0, rest, hd, hfil, ?_⟩
      exact (keepStage_colCells_value _).trans
        (rename_colCells_to_value c0 hv1 ▸ List.Perm.refl _)

/-! ## Periods and the per-region block structure of the growth columns -/

/-- (year, month) order. -/
def pLe (a b : Nat × Nat) : Prop :=
  a.1 < b.1 ∨ (a.1 = b.1 ∧ a.2 ≤ b.2)

/-- Strict (year, month) order. -/
def pLt (a b : Nat × Nat) : Prop :=
  a.1 < b.1 ∨ (a.1 = b.1 ∧ a.2 < b.2)

instance : DecidableRel pLe := fun _ _ => instDecidableOr
instance : DecidableRel pLt := fun _ _ => instDecidableOr

theorem rowLe_period {a b : CRow} (h : rowLe a b) (hreg : a.region = b.region) :
    pLe (a.date.year, a.date.month) (b.date.year, b.date.month) := by
  rcases h with h | ⟨_, hd⟩
  · rw [hreg, natListLt_irrefl] at h
    exact absurd h (by simp)
  · simp only [Date.leb, Bool.or_eq_true, Bool.and_eq_true, decide_eq_true_eq] at hd
    unfold pLe
    omega

/-- Position of a filtered element inside the original list: the element at
position `b` of `l.filter p` sits at some position `i` of `l`, and the rows
before `i` contribute exactly the first `b` elements of the filter. -/
theorem filter_idx {α : Type} (p : α → Bool) :
    ∀ (l : List α) (b : Nat) (x : α), (l.filter p).get? b = some x →
      ∃ i, l.get? i = some x ∧ p x = true ∧
        (l.take i).filter p = (l.filter p).take b := by
  intro l
  induction l with
  | nil => intro b x h; simp at h
  | cons a as ih =>
    intro b x h
    by_cases hp : p a = true
    · rw [List.filter_cons_of_pos hp] at h
      cases b with
      | zero =>
        have hax : a = x := by simpa using h
        subst hax
        exact ⟨0, rfl, hp, by simp⟩
      | succ b =>
        have h' : (as.filter p).get? b = some x := by simpa using h
        obtain ⟨i, h1, h2, h3⟩ := ih b x h'
        refine ⟨i + 1, by simpa using h1, h2, ?_⟩
        rw [List.take_succ_cons, List.filter_cons_of_pos hp,
          List.filter_cons_of_pos hp, List.take_succ_cons, h3]
    · rw [List.filter_cons_of_neg (by simpa using hp)] at h
      obtain ⟨i, h1, h2, h3⟩ := ih b x h
      refine ⟨i + 1, by simpa using h1, h2, ?_⟩
      rw [List.take_succ_cons, List.filter_cons_of_neg (by simpa using hp), h3,
        List.filter_cons_of_neg (by simpa using hp)]

theorem nanMean_single_none : nanMean [none] = none := rfl

theorem nanMean_single_some (c : ℚ) : nanMean [some c] = some c := by
  simp [nanMean]

theorem mem_out_key {t : CTable} {out : List MRow} (h : build_metrics t = .ok out)
    {m : MRow} (hm : m ∈ out) :
    ∃ k ∈ gkeysOf t, m = postProcess (aggGroup k (groupOf t k)) := by
  obtain ⟨hReg, hout⟩ := build_metrics_ok h
  rw [hout, List.mem_map] at hm
  obtain ⟨k, hk, he⟩ := hm
  exact ⟨k, hk, he.symm⟩

theorem out_row_of_key {t : CTable} {out : List MRow} (h : build_metrics t = .ok out)
    {e : ERow} (he : e ∈ eRowsOf t) :
    ∃ m ∈ out, keyOfM m = gkeyOf t.hasRegion t.hasRoadCategory e := by
  obtain ⟨hReg, hout⟩ := build_metrics_ok h
  have hk : gkeyOf t.hasRegion t.hasRoadCategory e ∈ gkeysOf t :=
    mem_gkeysOf.mpr ⟨e, he, rfl⟩
  refine ⟨postProcess (aggGroup (gkeyOf t.hasRegion t.hasRoadCategory e)
    (groupOf t (gkeyOf t.hasRegion t.hasRoadCategory e))), ?_, keyOfM_post_agg _ _⟩
  rw [hout]
  exact List.mem_map_of_mem _ hk

/-- The enriched rows are pairwise ordered by (region, date), inherited from
the `sort_values(["region", "date"])` of their underlying canonical rows. -/
theorem eRowsOf_pairwise (t : CTable) :
    List.Pairwise (fun a b : ERow => rowLe a.proj b.proj) (eRowsOf t) := by
  have hs : List.Pairwise rowLe (sortedRowsOf t) :=
    List.sorted_insertionSort rowLe t.rows
  rw [← eRowsOf_map_proj t] at hs
  exact List.pairwise_map.mp hs

/-- The first row of a region's block in the sorted enriched table has no
lagged predecessor: its `monthly_change` is NaN. -/
theorem first_of_region_change_none {t : CTable} {e : ERow}
    (h0 : ((eRowsOf t).filter (fun x => x.region == e.region)).get? 0 = some e) :
    e.monthly_change = none := by
  obtain ⟨i, hi, hpe, htake⟩ := filter_idx _ (eRowsOf t) 0 e h0
  rw [List.take_zero] at htake
  rw [eRowsOf_get? t i] at hi
  cases hr : (sortedRowsOf t).get? i with
  | none => rw [hr] at hi; exact absurd hi (by simp)
  | some r =>
    rw [hr] at hi
    have hi2 : mkERow (sortedRowsOf t) i r = e := by simpa using hi
    subst hi2
    -- the canonical rows before position i contain no row of this region
    have hstake : ((sortedRowsOf t).take i).filter
        (fun s => s.region == (mkERow (sortedRowsOf t) i r).region) = [] := by
      have hmap : (sortedRowsOf t).take i = ((eRowsOf t).take i).map ERow.proj := by
        rw [← eRowsOf_map_proj t, List.map_take]
      rw [hmap, List.filter_map]
      have hpred : ((fun s : CRow =>
            s.region == (mkERow (sortedRowsOf t) i r).region) ∘ ERow.proj) =
          (fun x : ERow => x.region == (mkERow (sortedRowsOf t) i r).region) := rfl
      rw [hpred, htake]
      rfl
    show (laggedPrev (sortedRowsOf t) i r 1).map
        (fun p => changePct p.value r.value) = none
    unfold laggedPrev
    have hst : ((sortedRowsOf t).take i).filter
        (fun s => s.region == r.region) = [] := hstake
    rw [hst]
    rfl

/-- C6 (amended): for every grouping context (region; tables without a
`road_category` column), if the first period of a region — the aggregate
row whose (year, month) is minimal among that region's rows — covers
exactly one canonical row, then its growth field is null (NaN), not a
fabricated zero.  (With several rows in the first period the field is the
NaN-skipping mean of the row-level changes and is in general non-null; see
the counterexample.) -/
theorem c6_first_period_amended (t : CTable) (out : List MRow)
    (h : build_metrics t = .ok out) (hRC : t.hasRoadCategory = false)
    (m : MRow) (hm : m ∈ out)
    (hfirst : ∀ m2 ∈ out, m2.region = m.region →
      pLe (m.year, m.month) (m2.year, m2.month))
    (hcount : m.traffic_count = 1) :
    m.monthly_change_mean = none := by
  obtain ⟨hReg, _⟩ := build_metrics_ok h
  obtain ⟨k, hk, hmk⟩ := mem_out_key h hm
  -- the group contains exactly one enriched row e0
  have hglen : (groupOf t k).length = 1 := by
    rw [hmk] at hcount
    simpa using hcount
  obtain ⟨e0, hge⟩ := List.length_eq_one.mp hglen
  have he0g : e0 ∈ groupOf t k := by rw [hge]; exact List.mem_singleton_self e0
  have he0E : e0 ∈ eRowsOf t := List.mem_of_mem_filter he0g
  have he0k : gkeyOf t.hasRegion t.hasRoadCategory e0 = k := by
    have := List.of_mem_filter he0g
    simpa using this
  -- the head e1 of e0's region block
  have he0EB : e0 ∈ (eRowsOf t).filter (fun x => x.region == e0.region) := by
    rw [List.mem_filter]
    exact ⟨he0E, by simp⟩
  obtain ⟨j, hj⟩ := List.mem_iff_get?.mp he0EB
  have hEBne : (eRowsOf t).filter (fun x => x.region == e0.region) ≠ [] :=
    List.ne_nil_of_mem he0EB
  obtain ⟨e1, he1⟩ : ∃ e1,
      ((eRowsOf t).filter (fun x => x.region == e0.region)).get? 0 = some e1 := by
    cases hEB : (eRowsOf t).filter (fun x => x.region == e0.region) with
    | nil => exact absurd hEB hEBne
    | cons a l => exact ⟨a, rfl⟩
  have he1EB : e1 ∈ (eRowsOf t).filter (fun x => x.region == e0.region) :=
    List.get?_mem he1
  have he1E : e1 ∈ eRowsOf t := List.mem_of_mem_filter he1EB
  have he1reg : e1.region = e0.region := by
    have := List.of_mem_filter he1EB
    simpa using this
  -- periods: e1 ≤ e0 (block order), and m ≤ e1 (m is the region's first
  -- period among output rows); since e0's period is m's period, they agree
  have hyearmonth : ∀ e : ERow, e ∈ eRowsOf t →
      e.year = e.date.year ∧ e.month = e.date.month := by
    intro e he
    obtain ⟨i, r, _, rfl⟩ := mem_eRowsOf he
    exact ⟨rfl, rfl⟩
  have hpair := eRowsOf_pairwise t
  have hEBpair : List.Pairwise (fun a b : ERow => rowLe a.proj b.proj)
      ((eRowsOf t).filter (fun x => x.region == e0.region)) :=
    hpair.sublist (List.filter_sublist _)
  have hple1 : pLe (e1.year, e1.month) (e0.year, e0.month) := by
    cases hj0 : j with
    | zero =>
      rw [hj0] at hj
      have he10 : e1 = e0 := by
        rw [hj] at he1
        exact (Option.some.inj he1).symm
      rw [he10]
      unfold pLe
      omega
    | succ j' =>
      have hjlen : j < ((eRowsOf t).filter (fun x => x.region == e0.region)).length := by
        by_contra hge2
        push_neg at hge2
        rw [List.get?_len_le hge2] at hj
        exact absurd hj (by simp)
      have h0len : 0 < ((eRowsOf t).filter (fun x => x.region == e0.region)).length := by
        omega
      have hrel := (List.pairwise_iff_get.mp hEBpair) ⟨0, h0len⟩ ⟨j, hjlen⟩
        (by simp [hj0])
      have hg0 : ((eRowsOf t).filter (fun x => x.region == e0.region)).get ⟨0, h0len⟩ = e1 := by
        have := List.get?_eq_get h0len
        rw [this] at he1
        exact Option.some.inj he1
      have hgj : ((eRowsOf t).filter (fun x => x.region == e0.region)).get ⟨j, hjlen⟩ = e0 := by
        have := List.get?_eq_get hjlen
        rw [this] at hj
        exact Option.some.inj hj
      rw [hg0, hgj] at hrel
      have hper := rowLe_period hrel (by simpa [ERow.proj] using he1reg)
      obtain ⟨hy1, hm1⟩ := hyearmonth e1 he1E
      obtain ⟨hy0, hm0⟩ := hyearmonth e0 he0E
      rw [hy1, hm1, hy0, hm0]
      exact hper
  -- m's period is e0's period
  have hmkey : keyOfM m = k := by rw [hmk]; exact keyOfM_post_agg _ _
  have hkey0 : (e0.year, e0.month, some e0.region, (none : Option String)) = k := by
    rw [← he0k]
    unfold gkeyOf
    rw [hReg, hRC]
    simp
  have hmy : m.year = e0.year := by
    have := congrArg (fun p : GKey => p.1) hmkey
    simp only [keyOfM] at this
    rw [this, ← hkey0]
  have hmm : m.month = e0.month := by
    have := congrArg (fun p : GKey => p.2.1) hmkey
    simp only [keyOfM] at this
    rw [this, ← hkey0]
  have hmr : m.region = some e0.region := by
    have := congrArg (fun p : GKey => p.2.2.1) hmkey
    simp only [keyOfM] at this
    rw [this, ← hkey0]
  -- the out-row of e1's key is in the same region, so m's period ≤ e1's
  obtain ⟨m1, hm1out, hm1key⟩ := out_row_of_key h he1E
  have hm1reg : m1.region = some e0.region := by
    have hc := congrArg (fun p : GKey => p.2.2.1) hm1key
    simp [keyOfM, gkeyOf, hReg, hRC, he1reg] at hc
    exact hc
  have hm1y : m1.year = e1.year := by
    have := congrArg (fun p : GKey => p.1) hm1key
    simpa [keyOfM, gkeyOf] using this
  have hm1m : m1.month = e1.month := by
    have := congrArg (fun p : GKey => p.2.1) hm1key
    simpa [keyOfM, gkeyOf] using this
  have hple2 : pLe (m.year, m.month) (e1.year, e1.month) := by
    have := hfirst m1 hm1out (by rw [hm1reg, hmr])
    rwa [hm1y, hm1m] at this
  -- hence e1's period equals e0's period, so e1 lies in m's group
  have hpeq : e1.year = e0.year ∧ e1.month = e0.month := by
    rw [hmy, hmm] at hple2
    unfold pLe at hple1 hple2
    constructor <;> omega
  have he1k : gkeyOf t.hasRegion t.hasRoadCategory e1 = k := by
    unfold gkeyOf
    rw [hReg, hRC, hpeq.1, hpeq.2, he1reg]
    exact hkey0
  have he1g : e1 ∈ groupOf t k := by
    unfold groupOf
    rw [List.mem_filter]
    exact ⟨he1E, by simp [he1k]⟩
  have he1e0 : e1 = e0 := by
    rw [hge] at he1g
    simpa using he1g
  -- the block head has a NaN change, and the group is that single row
  have hchg : e0.monthly_change = none :=
    first_of_region_change_none (he1e0 ▸ he1)
  rw [hmk]
  simp only [post_monthly_change_mean, agg_monthly_change_mean]
  rw [hge]
  simp [hchg, nanMean]

/-! ## C3: growth fields under one-row-per-period inputs -/

theorem length_filter_le_one_of_nodup_map {α β : Type} [DecidableEq β]
    {l : List α} {f : α → β} (h : (l.map f).Nodup) (b : β) :
    (l.filter (fun a => decide (f a = b))).length ≤ 1 := by
  induction l with
  | nil => simp
  | cons a as ih =>
    rw [List.map_cons, List.nodup_cons] at h
    by_cases hfa : f a = b
    · rw [List.filter_cons_of_pos (by simp [hfa])]
      have hnil : as.filter (fun x => decide (f x = b)) = [] := by
        rw [List.filter_eq_nil_iff]
        intro x hx hfx
        rw [decide_eq_true_eq] at hfx
        exact h.1 ((hfa.trans hfx.symm) ▸ List.mem_map_of_mem f hx)
      rw [hnil]
      simp
    · rw [List.filter_cons_of_neg (by simp [hfa])]
      exact ih h.2

theorem two_le_count_of_get? {α : Type} [DecidableEq α] {l : List α} {i j : Nat}
    {x : α} (hij : i < j) (hi : l.get? i = some x) (hj : l.get? j = some x) :
    2 ≤ l.count x := by
  have hx1 : x ∈ l.take j := by
    have ht : (l.take j).get? i = l.get? i := List.get?_take hij
    exact List.get?_mem (ht.trans hi)
  have hx2 : x ∈ l.drop j := by
    have hd : (l.drop j).get? 0 = l.get? (j + 0) := List.get?_drop l j 0
    exact List.get?_mem (by rw [hd]; simpa using hj)
  have hc1 : 1 ≤ (l.take j).count x := List.count_pos_iff_mem.mpr hx1
  have hc2 : 1 ≤ (l.drop j).count x := List.count_pos_iff_mem.mpr hx2
  calc 2 ≤ (l.take j).count x + (l.drop j).count x := by omega
    _ = l.count x := by rw [← List.count_append, List.take_append_drop]

theorem group_le_one {t : CTable}
    (hone : (t.rows.map (fun r => ckey t.hasRegion t.hasRoadCategory r)).Nodup)
    (k : GKey) : (groupOf t k).length ≤ 1 := by
  rw [groupOf_length]
  exact length_filter_le_one_of_nodup_map hone k

theorem group_singleton_of_mem {t : CTable} {out : List MRow}
    (h : build_metrics t = .ok out)
    (hone : (t.rows.map (fun r => ckey t.hasRegion t.hasRoadCategory r)).Nodup)
    {m : MRow} (hm : m ∈ out) :
    ∃ k e, k ∈ gkeysOf t ∧ m = postProcess (aggGroup k (groupOf t k)) ∧
      groupOf t k = [e] := by
  obtain ⟨k, hk, hmk⟩ := mem_out_key h hm
  obtain ⟨e, he, hke⟩ := mem_gkeysOf.mp hk
  have hmem : e ∈ groupOf t k := List.mem_filter.mpr ⟨he, by simp [hke]⟩
  have hlen := group_le_one hone k
  have hpos : 0 < (groupOf t k).length := List.length_pos_of_mem hmem
  have h1 : (groupOf t k).length = 1 := by omega
  obtain ⟨e1, hge⟩ := List.length_eq_one.mp h1
  exact ⟨k, e1, hk, hmk, hge⟩

theorem key_components {t : CTable} (hReg : t.hasRegion = true)
    (hRC : t.hasRoadCategory = false) (e : ERow) :
    gkeyOf t.hasRegion t.hasRoadCategory e =
      (e.year, e.month, some e.region, (none : Option String)) := by
  unfold gkeyOf
  rw [hReg, hRC]
  simp

/-- C3 (amended): when every (year, month, region) period of the canonical
table covers at most one row (so per-period and per-row statistics agree),
the monthly growth field of an aggregate row equals the percentage change
of the period's statistic (`sum`, = `mean` here) relative to the
immediately preceding period of the same region — the adjacency hypothesis
says no other period of that region lies strictly between the two rows.
On general tables the field is instead the mean of row-level changes (see
the counterexample). -/
theorem c3_growth_one_row_per_period (t : CTable) (out : List MRow)
    (h : build_metrics t = .ok out) (hRC : t.hasRoadCategory = false)
    (hone : (t.rows.map (fun r => ckey t.hasRegion t.hasRoadCategory r)).Nodup)
    (m m2 : MRow) (hm : m ∈ out) (hm2 : m2 ∈ out)
    (hreg : m2.region = m.region)
    (hlt : pLt (m.year, m.month) (m2.year, m2.month))
    (hadj : ∀ m3 ∈ out, m3.region = m.region →
      ¬(pLt (m.year, m.month) (m3.year, m3.month) ∧
        pLt (m3.year, m3.month) (m2.year, m2.month)))
    (hnz : m.traffic_sum ≠ 0) :
    m2.monthly_change_mean =
      some ((m2.traffic_sum - m.traffic_sum) / m.traffic_sum * 100) := by
  obtain ⟨hReg, _hout⟩ := build_metrics_ok h
  obtain ⟨k1, e0, hk1, hmk1, hg1⟩ := group_singleton_of_mem h hone hm
  obtain ⟨k2, e2, hk2, hmk2, hg2⟩ := group_singleton_of_mem h hone hm2
  have he0g : e0 ∈ groupOf t k1 := by rw [hg1]; exact List.mem_singleton_self e0
  have he2g : e2 ∈ groupOf t k2 := by rw [hg2]; exact List.mem_singleton_self e2
  have he0E : e0 ∈ eRowsOf t := List.mem_of_mem_filter he0g
  have he2E : e2 ∈ eRowsOf t := List.mem_of_mem_filter he2g
  have he0k : gkeyOf t.hasRegion t.hasRoadCategory e0 = k1 := by
    simpa using List.of_mem_filter he0g
  have he2k : gkeyOf t.hasRegion t.hasRoadCategory e2 = k2 := by
    simpa using List.of_mem_filter he2g
  have hkey1 : k1 = (e0.year, e0.month, some e0.region, (none : Option String)) := by
    rw [← he0k, key_components hReg hRC]
  have hkey2 : k2 = (e2.year, e2.month, some e2.region, (none : Option String)) := by
    rw [← he2k, key_components hReg hRC]
  have hmkey1 : keyOfM m = k1 := by rw [hmk1]; exact keyOfM_post_agg _ _
  have hmkey2 : keyOfM m2 = k2 := by rw [hmk2]; exact keyOfM_post_agg _ _
  have hmc1 : m.year = e0.year ∧ m.month = e0.month ∧ m.region = some e0.region := by
    have hc := hmkey1.trans hkey1
    unfold keyOfM at hc
    exact ⟨congrArg (fun p : GKey => p.1) hc, congrArg (fun p : GKey => p.2.1) hc,
      congrArg (fun p : GKey => p.2.2.1) hc⟩
  have hmc2 : m2.year = e2.year ∧ m2.month = e2.month ∧ m2.region = some e2.region := by
    have hc := hmkey2.trans hkey2
    unfold keyOfM at hc
    exact ⟨congrArg (fun p : GKey => p.1) hc, congrArg (fun p : GKey => p.2.1) hc,
      congrArg (fun p : GKey => p.2.2.1) hc⟩
  have hregeq : e2.region = e0.region :=
    Option.some.inj (by rw [← hmc2.2.2, hreg, hmc1.2.2])
  -- positions of e0 and e2 in the region block
  have he2EB : e2 ∈ (eRowsOf t).filter (fun x => x.region == e0.region) :=
    List.mem_filter.mpr ⟨he2E, by simp [hregeq]⟩
  have he0EB : e0 ∈ (eRowsOf t).filter (fun x => x.region == e0.region) :=
    List.mem_filter.mpr ⟨he0E, by simp⟩
  obtain ⟨b, hb⟩ := List.mem_iff_get?.mp he2EB
  obtain ⟨b0, hb0⟩ := List.mem_iff_get?.mp he0EB
  have hblen : b < ((eRowsOf t).filter (fun x => x.region == e0.region)).length := by
    by_contra hge
    push_neg at hge
    rw [List.get?_len_le hge] at hb
    exact absurd hb (by simp)
  have hb0len : b0 < ((eRowsOf t).filter (fun x => x.region == e0.region)).length := by
    by_contra hge
    push_neg at hge
    rw [List.get?_len_le hge] at hb0
    exact absurd hb0 (by simp)
  have hEBpair : List.Pairwise (fun a b : ERow => rowLe a.proj b.proj)
      ((eRowsOf t).filter (fun x => x.region == e0.region)) :=
    (eRowsOf_pairwise t).sublist (List.filter_sublist _)
  have hyearmonth : ∀ e : ERow, e ∈ eRowsOf t →
      e.year = e.date.year ∧ e.month = e.date.month := by
    intro e he
    obtain ⟨i, r, _, rfl⟩ := mem_eRowsOf he
    exact ⟨rfl, rfl⟩
  have hperiodLe : ∀ {x y : ERow} {ix iy : Nat}, ix < iy →
      ((eRowsOf t).filter (fun z => z.region == e0.region)).get? ix = some x →
      ((eRowsOf t).filter (fun z => z.region == e0.region)).get? iy = some y →
      pLe (x.year, x.month) (y.year, y.month) := by
    intro x y ix iy hxy hgx hgy
    have hxlen : ix < ((eRowsOf t).filter (fun z => z.region == e0.region)).length := by
      by_contra hge
      push_neg at hge
      rw [List.get?_len_le hge] at hgx
      exact absurd hgx (by simp)
    have hylen : iy < ((eRowsOf t).filter (fun z => z.region == e0.region)).length := by
      by_contra hge
      push_neg at hge
      rw [List.get?_len_le hge] at hgy
      exact absurd hgy (by simp)
    have hrel := (List.pairwise_iff_get.mp hEBpair) ⟨ix, hxlen⟩ ⟨iy, hylen⟩
      (by simpa using hxy)
    have hgx2 : ((eRowsOf t).filter (fun z => z.region == e0.region)).get ⟨ix, hxlen⟩ = x := by
      have := List.get?_eq_get hxlen
      rw [this] at hgx
      exact Option.some.inj hgx
    have hgy2 : ((eRowsOf t).filter (fun z => z.region == e0.region)).get ⟨iy, hylen⟩ = y := by
      have := List.get?_eq_get hylen
      rw [this] at hgy
      exact Option.some.inj hgy
    rw [hgx2, hgy2] at hrel
    have hxm : x ∈ (eRowsOf t).filter (fun z => z.region == e0.region) := List.get?_mem hgx
    have hym : y ∈ (eRowsOf t).filter (fun z => z.region == e0.region) := List.get?_mem hgy
    have hxr : x.region = e0.region := by simpa using List.of_mem_filter hxm
    have hyr : y.region = e0.region := by simpa using List.of_mem_filter hym
    have hper := rowLe_period hrel (by simpa [ERow.proj] using hxr.trans hyr.symm)
    obtain ⟨ha1, ha2⟩ := hyearmonth x (List.mem_of_mem_filter hxm)
    obtain ⟨hb1, hb2⟩ := hyearmonth y (List.mem_of_mem_filter hym)
    rw [ha1, ha2, hb1, hb2]
    exact hper
  -- e0 strictly precedes e2 in the block
  have hltP : pLt (e0.year, e0.month) (e2.year, e2.month) := by
    rw [hmc1.1, hmc1.2.1, hmc2.1, hmc2.2.1] at hlt
    exact hlt
  have hb0b : b0 < b := by
    rcases Nat.lt_trichotomy b0 b with hlt2 | heq2 | hgt2
    · exact hlt2
    · exfalso
      rw [heq2] at hb0
      have : e0 = e2 := Option.some.inj (hb0.symm.trans hb)
      rw [this] at hltP
      unfold pLt at hltP
      omega
    · exfalso
      have := hperiodLe hgt2 hb hb0
      unfold pLe at this
      unfold pLt at hltP
      omega
  obtain ⟨e3, he3⟩ : ∃ e3,
      ((eRowsOf t).filter (fun x => x.region == e0.region)).get? (b - 1) = some e3 := by
    have hl : b - 1 < ((eRowsOf t).filter (fun x => x.region == e0.region)).length := by
      omega
    exact ⟨_, List.get?_eq_get hl⟩
  have he3EB : e3 ∈ (eRowsOf t).filter (fun x => x.region == e0.region) :=
    List.get?_mem he3
  have he3E : e3 ∈ eRowsOf t := List.mem_of_mem_filter he3EB
  have he3reg : e3.region = e0.region := by simpa using List.of_mem_filter he3EB
  have hpleP0P3 : pLe (e0.year, e0.month) (e3.year, e3.month) := by
    rcases Nat.lt_or_ge b0 (b - 1) with hlt2 | hge2
    · exact hperiodLe hlt2 hb0 he3
    · have hbe : b0 = b - 1 := by omega
      rw [hbe] at hb0
      have : e0 = e3 := Option.some.inj (hb0.symm.trans he3)
      rw [this]
      unfold pLe
      omega
  have hpleP3P2 : pLe (e3.year, e3.month) (e2.year, e2.month) :=
    hperiodLe (by omega) he3 hb
  -- e3's period is distinct from e2's (otherwise e2 would occur twice)
  have hPne : ¬(e3.year = e2.year ∧ e3.month = e2.month) := by
    rintro ⟨hy, hmo⟩
    have hk3 : gkeyOf t.hasRegion t.hasRoadCategory e3 = k2 := by
      rw [key_components hReg hRC, hkey2, hy, hmo, he3reg, ← hregeq]
    have he3g2 : e3 ∈ groupOf t k2 := List.mem_filter.mpr ⟨he3E, by simp [hk3]⟩
    have he3e2 : e3 = e2 := by
      rw [hg2] at he3g2
      simpa using he3g2
    rw [he3e2] at he3
    have hcount : 2 ≤ ((eRowsOf t).filter (fun x => x.region == e0.region)).count e2 :=
      two_le_count_of_get? (show b - 1 < b by omega) he3 hb
    have hcountE : 2 ≤ (eRowsOf t).count e2 :=
      le_trans hcount ((List.filter_sublist _).count_le e2)
    have hcountG : 2 ≤ (groupOf t k2).count e2 := by
      unfold groupOf
      rw [List.count_filter (by simp [he2k])]
      exact hcountE
    have hlen2 : 2 ≤ (groupOf t k2).length :=
      le_trans hcountG (List.count_le_length e2 _)
    rw [hg2] at hlen2
    simp at hlen2
  have hP3lt : pLt (e3.year, e3.month) (e2.year, e2.month) := by
    unfold pLe at hpleP3P2
    unfold pLt
    rcases hpleP3P2 with hy | ⟨hy, hmo⟩
    · exact Or.inl hy
    · rcases Nat.lt_or_ge e3.month e2.month with h1 | h2
      · exact Or.inr ⟨hy, h1⟩
      · exact absurd ⟨hy, by omega⟩ hPne
  -- e3's aggregate row sits between m and m2 unless e3's period is m's
  obtain ⟨m3, hm3out, hm3key⟩ := out_row_of_key h he3E
  have hm3c : m3.year = e3.year ∧ m3.month = e3.month ∧ m3.region = some e3.region := by
    have hc := hm3key.trans (key_components hReg hRC e3)
    unfold keyOfM at hc
    exact ⟨congrArg (fun p : GKey => p.1) hc, congrArg (fun p : GKey => p.2.1) hc,
      congrArg (fun p : GKey => p.2.2.1) hc⟩
  have hm3reg : m3.region = m.region := by rw [hm3c.2.2, he3reg, ← hmc1.2.2]
  have hnbetween := hadj m3 hm3out hm3reg
  have hP0P3 : e0.year = e3.year ∧ e0.month = e3.month := by
    by_contra hne
    apply hnbetween
    constructor
    · rw [hmc1.1, hmc1.2.1, hm3c.1, hm3c.2.1]
      unfold pLe at hpleP0P3
      unfold pLt
      rcases hpleP0P3 with hy | ⟨hy, hmo⟩
      · exact Or.inl hy
      · rcases Nat.lt_or_ge e0.month e3.month with h1 | h2
        · exact Or.inr ⟨hy, h1⟩
        · exact absurd ⟨hy, by omega⟩ hne
    · rw [hm3c.1, hm3c.2.1, hmc2.1, hmc2.2.1]
      exact hP3lt
  -- so e3 carries m's key and is the single row of m's group: e3 = e0
  have hk31 : gkeyOf t.hasRegion t.hasRoadCategory e3 = k1 := by
    rw [key_components hReg hRC, hkey1, hP0P3.1, hP0P3.2, he3reg]
  have he3g1 : e3 ∈ groupOf t k1 := List.mem_filter.mpr ⟨he3E, by simp [hk31]⟩
  have he3e0 : e3 = e0 := by
    rw [hg1] at he3g1
    simpa using he3g1
  -- compute e2's row-level change from the block structure
  obtain ⟨i, hiE, hpe2, htake⟩ :=
    filter_idx (fun x => x.region == e0.region) (eRowsOf t) b e2 hb
  rw [eRowsOf_get? t i] at hiE
  cases hr : (sortedRowsOf t).get? i with
  | none => rw [hr] at hiE; exact absurd hiE (by simp)
  | some r2 =>
    rw [hr] at hiE
    have hi2 : mkERow (sortedRowsOf t) i r2 = e2 := by simpa using hiE
    have hr2reg : r2.region = e0.region := by
      have h5 : r2.region = e2.region := congrArg ERow.region hi2
      rw [h5, hregeq]
    have hstake : ((sortedRowsOf t).take i).filter (fun s => s.region == r2.region) =
        (((eRowsOf t).filter (fun x => x.region == e0.region)).take b).map ERow.proj := by
      have hmap : (sortedRowsOf t).take i = ((eRowsOf t).take i).map ERow.proj := by
        rw [← eRowsOf_map_proj t, List.map_take]
      rw [hmap, List.filter_map]
      have hpred : ((fun s : CRow => s.region == r2.region) ∘ ERow.proj) =
          (fun x : ERow => x.region == r2.region) := rfl
      rw [hpred, hr2reg, htake]
    have hv0 : m.traffic_sum = e0.value := by
      rw [hmk1]
      simp only [post_traffic_sum, agg_traffic_sum]
      rw [hg1]
      simp
    have hv2 : m2.traffic_sum = e2.value := by
      rw [hmk2]
      simp only [post_traffic_sum, agg_traffic_sum]
      rw [hg2]
      simp
    have hch0 : (mkERow (sortedRowsOf t) i r2).monthly_change =
        some (changePct e0.value r2.value) := by
      show (laggedPrev (sortedRowsOf t) i r2 1).map
        (fun p => changePct p.value r2.value) = some (changePct e0.value r2.value)
      unfold laggedPrev
      rw [hstake]
      have hlen2 : ((((eRowsOf t).filter
          (fun x => x.region == e0.region)).take b).map ERow.proj).length = b := by
        rw [List.length_map, List.length_take]
        omega
      rw [hlen2, if_pos (by omega)]
      have hget : ((((eRowsOf t).filter
          (fun x => x.region == e0.region)).take b).map ERow.proj).get? (b - 1) =
          some (ERow.proj e0) := by
        rw [List.get?_map]
        have ht2 : (((eRowsOf t).filter (fun x => x.region == e0.region)).take b).get?
            (b - 1) = ((eRowsOf t).filter (fun x => x.region == e0.region)).get? (b - 1) :=
          List.get?_take (by omega)
        rw [ht2, he3, he3e0]
        rfl
      rw [hget]
      rfl
    have hchg : e2.monthly_change = some (changePct e0.value e2.value) := by
      rw [← hi2]
      exact hch0
    have hfinal : m2.monthly_change_mean = some (changePct e0.value e2.value) := by
      rw [hmk2]
      simp only [post_monthly_change_mean, agg_monthly_change_mean]
      rw [hg2]
      simp [hchg, nanMean]
    rw [hfinal, hv0, hv2]
    unfold changePct
    rfl

/-! ## Counterexamples and witnesses -/

/-- A default `MRow`, used only as the `getD` fallback on concrete outputs. -/
def dummyM : MRow :=
  { year := 0, month := 0, region := none, road_category := none,
    traffic_sum := 0, traffic_mean := 0, traffic_median := 0, traffic_count := 0,
    traffic_max := 0, traffic_min := 0, monthly_change_mean := none,
    yearly_change_mean := none, rolling_3_month_last := 0,
    rolling_12_month_last := 0, date := ⟨0, 0, 0⟩, season := none,
    traffic_intensity := none }

/-- Region `A` with two January rows and one February row. -/
def c3T : CTable :=
  { hasRegion := true, hasRoadCategory := false,
    rows := [⟨⟨2024, 1, 1⟩, 10, "A", ""⟩,
             ⟨⟨2024, 1, 15⟩, 20, "A", ""⟩,
             ⟨⟨2024, 2, 1⟩, 30, "A", ""⟩] }

def c3Out : List MRow :=
  match build_metrics c3T with
  | .ok o => o
  | .error _ => []

/-- C3 (counterexample): on the three-row table, February's aggregate
growth field is the mean of row-level changes (50%), which equals neither
the percentage change of the period means (15 → 30, i.e. 100%) nor that of
the period sums (30 → 30, i.e. 0%), although February immediately follows
January in the same region. -/
theorem c3_growth_pct_counterexample :
    build_metrics c3T = .ok c3Out ∧
      (c3Out.getD 1 dummyM).monthly_change_mean = some 50 ∧
      (c3Out.getD 1 dummyM).monthly_change_mean ≠
        some (((c3Out.getD 1 dummyM).traffic_mean - (c3Out.getD 0 dummyM).traffic_mean) /
          (c3Out.getD 0 dummyM).traffic_mean * 100) ∧
      (c3Out.getD 1 dummyM).monthly_change_mean ≠
        some (((c3Out.getD 1 dummyM).traffic_sum - (c3Out.getD 0 dummyM).traffic_sum) /
          (c3Out.getD 0 dummyM).traffic_sum * 100) ∧
      (c3Out.getD 0 dummyM).region = (c3Out.getD 1 dummyM).region ∧
      pLt ((c3Out.getD 0 dummyM).year, (c3Out.getD 0 dummyM).month)
        ((c3Out.getD 1 dummyM).year, (c3Out.getD 1 dummyM).month) := by
  refine ⟨by rfl, by rfl, by decide, by decide, by rfl, by decide⟩

/-- Region `A` with a single period containing two rows. -/
def c6T : CTable :=
  { hasRegion := true, hasRoadCategory := false,
    rows := [⟨⟨2024, 1, 1⟩, 10, "A", ""⟩,
             ⟨⟨2024, 1, 15⟩, 20, "A", ""⟩] }

def c6Out : List MRow :=
  match build_metrics c6T with
  | .ok o => o
  | .error _ => []

/-- C6 (counterexample): the single (hence first) period of region `A`
contains two rows, and its growth field is 100 — non-null (and non-zero)
although the period has no predecessor: pandas' NaN-skipping mean keeps
the second row's within-period change. -/
theorem c6_first_period_counterexample :
    build_metrics c6T = .ok c6Out ∧
      c6Out.length = 1 ∧
      (c6Out.getD 0 dummyM).monthly_change_mean = some 100 ∧
      (c6Out.getD 0 dummyM).monthly_change_mean ≠ none := by
  refine ⟨by rfl, by rfl, by rfl, by decide⟩

/-- Witness input for C1: two groups, one of them with two rows. -/
def c1wT : CTable :=
  { hasRegion := true, hasRoadCategory := false,
    rows := [⟨⟨2024, 1, 1⟩, 10, "A", ""⟩,
             ⟨⟨2024, 1, 15⟩, 20, "A", ""⟩,
             ⟨⟨2024, 2, 1⟩, 30, "A", ""⟩] }

def c1wOut : List MRow :=
  match build_metrics c1wT with
  | .ok o => o
  | .error _ => []

theorem c1_group_stats_witness :
    (c1wOut.getD 0 dummyM).traffic_sum =
      ((inputGroup c1wT (keyOfM (c1wOut.getD 0 dummyM))).map (fun r => r.value)).sum ∧
      (c1wOut.getD 0 dummyM).traffic_count =
        (inputGroup c1wT (keyOfM (c1wOut.getD 0 dummyM))).length ∧
      (c1wOut.getD 0 dummyM).traffic_mean =
        (c1wOut.getD 0 dummyM).traffic_sum / ((c1wOut.getD 0 dummyM).traffic_count : ℚ) :=
  (c1_build_metrics_group_stats c1wT c1wOut rfl).1 (c1wOut.getD 0 dummyM) (by decide)

/-- Witness input for C3: region `A`, one row per period. -/
def c3wT : CTable :=
  { hasRegion := true, hasRoadCategory := false,
    rows := [⟨⟨2024, 1, 1⟩, 10, "A", ""⟩,
             ⟨⟨2024, 2, 1⟩, 30, "A", ""⟩] }

def c3wOut : List MRow :=
  match build_metrics c3wT with
  | .ok o => o
  | .error _ => []

theorem c3_growth_witness :
    (c3wOut.getD 1 dummyM).monthly_change_mean =
      some (((c3wOut.getD 1 dummyM).traffic_sum - (c3wOut.getD 0 dummyM).traffic_sum) /
        (c3wOut.getD 0 dummyM).traffic_sum * 100) :=
  c3_growth_one_row_per_period c3wT c3wOut rfl rfl (by decide)
    (c3wOut.getD 0 dummyM) (c3wOut.getD 1 dummyM) (by decide) (by decide)
    (by decide) (by decide) (by decide) (by decide)

/-- Witness input for C6: region `A`, a single one-row period. -/
def c6wT : CTable :=
  { hasRegion := true, hasRoadCategory := false,
    rows := [⟨⟨2024, 1, 1⟩, 10, "A", ""⟩] }

def c6wOut : List MRow :=
  match build_metrics c6wT with
  | .ok o => o
  | .error _ => []

theorem c6_first_period_witness :
    (c6wOut.getD 0 dummyM).monthly_change_mean = none :=
  c6_first_period_amended c6wT c6wOut rfl rfl (c6wOut.getD 0 dummyM)
    (by decide) (by decide) (by decide)

/-- Witness input for C5: a `date` column and a numeric column, no `value`. -/
def c5wT : RTable :=
  { cols := ["date", "x"], rows := [[.date ⟨2024, 1, 1⟩, .num 5]] }

def c5wMid : RTable :=
  match dateStage c5wT with
  | .ok u => u
  | .error _ => c5wT

theorem c5_schema_error_witness : (load_raw c5wT).isOk = true :=
  ((c5_schema_error_amended c5wT).2 c5wMid (by rfl) "date" (by rfl)).2
    (Or.inr (by decide))

theorem c7_sorted_witness :
    List.Sorted (rowDateLe (c7Out.idxOf "date")) c7Out.rows :=
  c7_sorted_by_date c7Raw c7Out (by decide)

/-- Witness input for C8: a `value` column present, plus a context column. -/
def c8wT : RTable :=
  { cols := ["date", "value", "region"],
    rows := [[.date ⟨2024, 1, 2⟩, .num 3, .str "B"],
             [.date ⟨2024, 1, 1⟩, .num 4, .str "A"]] }

def c8wOut : RTable :=
  match load_raw c8wT with
  | .ok u => u
  | .error _ => c8wT

theorem c8_value_witness :
    c8wOut.cols.count "value" = 1 ∧
      (c8wOut.colCells "value").Perm (c8wT.colCells "value") :=
  ⟨(c8_value_column_selection c8wT c8wOut (by decide)).1,
    (c8_value_column_selection c8wT c8wOut (by decide)).2.1 (by decide)⟩

/-- Witness input for C9: extra columns outside the vocabulary are dropped. -/
def c9wT : RTable :=
  { cols := ["timestamp", "speed", "region", "junk"],
    rows := [[.date ⟨2024, 3, 1⟩, .num 7, .str "C", .str "x"]] }

def c9wOut : RTable :=
  match load_raw c9wT with
  | .ok u => u
  | .error _ => c9wT

theorem c9_canonical_witness :
    c9wOut.cols.count "date" = 1 ∧ c9wOut.cols.count "value" = 1 :=
  ⟨(c9_canonical_columns c9wT c9wOut (by decide)).1,
    (c9_canonical_columns c9wT c9wOut (by decide)).2.1⟩
